import Mathlib

/-!
Verification of the dependency-resolution core of the latex-to-llm tool
(src/latex_to_llm.py) against its natural-language specification.

The embedding models the POSIX path arithmetic the script relies on
(os.path.abspath, os.path.join, os.path.relpath, os.path.dirname,
os.path.splitext, os.path.basename), the fnmatch-based exclusion matcher
(matches_any, lines 43-63), reference resolution (resolve_tex_path,
lines 107-117; normalize_path, lines 119-129), and the recursive
dependency collector (collect_dependencies / recurse, lines 131-235).

Modelling conventions:
* An absolute path is a drive number plus a list of path segments.  Drive 0
  is the drive holding the project root (the current working directory).
  Distinct drives model the Windows situation in which os.path.relpath
  raises ValueError ("crosses an unrelated filesystem root"); on one drive
  relpath always succeeds, as on POSIX.
* File contents are modelled at the granularity the resolver consumes them:
  the ordered lists of reference strings produced by the three regex
  findall passes (INCLUDE_REGEX, BIB_REGEX, GRAPHICS_REGEX).  A reference
  is a structured path (optional drive plus segments) rather than a raw
  string; the raw-string form is recovered by refString.
* The filesystem is a finite association list from absolute paths to file
  states; a file is readable (with a document), unreadable (open raises,
  modelling permission or encoding errors), or absent from the list.
* Diagnostics printed to stderr are modelled as an ordered list of Diag
  values carried in the traversal state.  The source lines at which the
  resolver prints nothing (the commented-out warning at line 143 and the
  bare continue at lines 178-179) correspondingly add nothing.
* Recursion in recurse is bounded by a fuel parameter; collect_dependencies
  runs it with fuel (number of filesystem entries + 1), which is proved
  sufficient (fuel indifference, claim C2).
-/

namespace L2L

/-! ## Path segments and normalization (os.path.normpath / abspath) -/

/-- One step of os.path.normpath on an absolute path, left to right:
drop "." and empty segments, let ".." pop the previous segment
(clamped at the root, as normpath does for absolute paths). -/
def normStep (acc : List String) (s : String) : List String :=
  if s = "." ∨ s = "" then acc
  else if s = ".." then acc.dropLast
  else acc ++ [s]

/-- Normalize the segment list of an absolute path. -/
def normSegs (segs : List String) : List String :=
  segs.foldl normStep []

/-- An absolute path: a drive (0 is the project's drive) and segments from
the root of that drive. -/
structure AbsPath where
  drive : Nat
  segs : List String
deriving DecidableEq

/-- A reference string as it appears inside a document, in structured form:
a relative reference (drive = none) or an absolute one naming a drive. -/
structure Ref where
  drive : Option Nat
  segs : List String
deriving DecidableEq

/-- os.path.abspath (os.path.join base ref): an absolute second operand
replaces the first, otherwise segments are appended; the result is
normalized. -/
def absJoinNorm (base : AbsPath) (r : Ref) : AbsPath :=
  match r.drive with
  | some d => ⟨d, normSegs r.segs⟩
  | none => ⟨base.drive, normSegs (base.segs ++ r.segs)⟩

/-- os.path.dirname on an absolute path. -/
def dirname (p : AbsPath) : AbsPath :=
  ⟨p.drive, p.segs.dropLast⟩

/-- Length of the common prefix of two segment lists (posixpath.relpath's
commonprefix computation). -/
def commonPrefixLen : List String → List String → Nat
  | s :: ss, t :: ts => if s = t then commonPrefixLen ss ts + 1 else 0
  | _, _ => 0

/-- Segment form of os.path.relpath between two normalized segment lists:
go up from start to the common prefix, then down into target. -/
def relpathSegs (start target : List String) : List String :=
  let i := commonPrefixLen start target
  List.replicate (start.length - i) ".." ++ target.drop i

/-- os.path.relpath p (relative to cwd): ValueError (none) when the paths
live on different drives, as on Windows; otherwise the relative segment
list, [\x22.\x22] when the two coincide.  relpath normalizes its operands. -/
def relpathOpt (cwd p : AbsPath) : Option (List String) :=
  if p.drive = cwd.drive then
    let r := relpathSegs (normSegs cwd.segs) (normSegs p.segs)
    some (if r = [] then ["."] else r)
  else none

/-- Render a relative segment list with forward slashes (the script's
.replace(os.sep, '/') applied to a relative path; os.sep is '/' here). -/
def segsToString (segs : List String) : String :=
  String.intercalate "/" segs

/-- The raw string of a reference, forward-slash separated.  An absolute
reference on drive d is rendered with a drive marker. -/
def refString (r : Ref) : String :=
  match r.drive with
  | none => segsToString r.segs
  | some d => "//" ++ toString d ++ "/" ++ segsToString r.segs

/-! ## fnmatch-style glob matching (fnmatch.fnmatch, case-sensitive as on
POSIX where os.path.normcase is the identity) -/

/-- Split a character-class body at its closing bracket; none when the
class is unterminated. -/
def splitAtClose : List Char → Option (List Char × List Char)
  | [] => none
  | ']' :: t => some ([], t)
  | c :: t => (splitAtClose t).map (fun ab => (c :: ab.1, ab.2))

/-- Parse a glob character class right after the opening bracket:
negation flag, class body, rest of the pattern.  A ']' right after '['
(or after '[!') is a literal member, as in fnmatch.translate. -/
def parseClass (ps : List Char) : Option (Bool × List Char × List Char) :=
  let negps : Bool × List Char :=
    match ps with
    | '!' :: t => (true, t)
    | _ => (false, ps)
  match negps.2 with
  | ']' :: t => (splitAtClose t).map (fun ab => (negps.1, ']' :: ab.1, ab.2))
  | other => (splitAtClose other).map (fun ab => (negps.1, ab.1, ab.2))

/-- A compiled glob token. -/
inductive GTok where
  | star
  | anyChar
  | lit (c : Char)
  | cls (neg : Bool) (body : List Char)
deriving DecidableEq

/-- Compile a glob pattern to tokens (the shape fnmatch.translate gives
its regex); fuelled so that the definition reduces in the kernel.  Fuel
pattern.length + 1 always suffices: every step consumes at least one
character. -/
def compilePatF : Nat → List Char → List GTok
  | 0, _ => []
  | _ + 1, [] => []
  | fuel + 1, '*' :: ps => GTok.star :: compilePatF fuel ps
  | fuel + 1, '?' :: ps => GTok.anyChar :: compilePatF fuel ps
  | fuel + 1, '[' :: ps =>
    match parseClass ps with
    | some (neg, body, rest) => GTok.cls neg body :: compilePatF fuel rest
    | none => GTok.lit '[' :: compilePatF fuel ps
  | fuel + 1, c :: ps => GTok.lit c :: compilePatF fuel ps

/-- Membership of a character in a glob class body, with ranges. -/
def classMatch : List Char → Char → Bool
  | a :: '-' :: b :: rest, c =>
    if rest = [] ∧ b = ']' then (a = c) || (('-' = c) || (']' = c))
    else (decide (a ≤ c) && decide (c ≤ b)) || classMatch rest c
  | a :: rest, c => (a = c) || classMatch rest c
  | [], _ => false

/-- Token-list glob matching against a full name, fuelled so that the
definition reduces in the kernel.  Every recursive call shrinks
tokens.length + name.length, so fuel above that bound never runs out. -/
def tokMatchF : Nat → List GTok → List Char → Bool
  | 0, _, _ => false
  | _ + 1, [], cs => cs.isEmpty
  | fuel + 1, GTok.star :: ts, [] => tokMatchF fuel ts []
  | fuel + 1, GTok.star :: ts, c :: cs =>
    tokMatchF fuel ts (c :: cs) || tokMatchF fuel (GTok.star :: ts) cs
  | fuel + 1, GTok.anyChar :: ts, _ :: cs => tokMatchF fuel ts cs
  | fuel + 1, GTok.lit p :: ts, c :: cs => (p = c) && tokMatchF fuel ts cs
  | fuel + 1, GTok.cls neg body :: ts, c :: cs =>
    (classMatch body c != neg) && tokMatchF fuel ts cs
  | _ + 1, _ :: _, [] => false

/-- fnmatch.fnmatch name pat (full match, case-sensitive). -/
def fnmatchB (name pat : String) : Bool :=
  let ts := compilePatF (pat.data.length + 1) pat.data
  tokMatchF (ts.length + name.data.length + 1) ts name.data

/-- os.path.basename of a forward-slash path: everything after the last
slash. -/
def basename (s : String) : String :=
  ⟨(s.data.reverse.takeWhile (fun c => c ≠ '/')).reverse⟩

/-- Does the first character list start with the second? -/
def startsWithChars : List Char → List Char → Bool
  | _, [] => true
  | [], _ :: _ => false
  | c :: cs, p :: ps => (p = c) && startsWithChars cs ps

/-- Does the first character list end with the second? -/
def endsWithChars (s pat : List Char) : Bool :=
  startsWithChars s.reverse pat.reverse

/-- ASCII lowering of one character (str.lower on the alphabet the script
cares about). -/
def lowerAscii (c : Char) : Char :=
  if 'A' ≤ c ∧ c ≤ 'Z' then Char.ofNat (c.toNat + 32) else c

/-- matches_any (src/latex_to_llm.py lines 43-63): a path (already
forward-slash normalized; os.sep is '/', so the replace calls are the
identity) matches a pattern set when some pattern glob-matches the full
path, glob-matches its basename, or is a directory pattern (ending in
'/') that is a string prefix of the path. -/
def matches_any (relPath : String) (patterns : List String) : Bool :=
  patterns.any (fun pat =>
    fnmatchB relPath pat || fnmatchB (basename relPath) pat ||
      (endsWithChars pat.data ['/'] && startsWithChars relPath.data pat.data))

/-! ## Filesystem and traversal state -/

/-- A document's content, at the granularity the resolver reads it: the
ordered reference lists produced by INCLUDE_REGEX, BIB_REGEX and
GRAPHICS_REGEX findall over the file's text. -/
structure Doc where
  includes : List Ref
  bibRefs : List Ref
  imgRefs : List Ref
deriving DecidableEq

/-- State of a file on disk: readable with a document, or present but
unreadable (open raises an encoding/permission error). -/
inductive FileState where
  | readable (doc : Doc)
  | unreadable
deriving DecidableEq

/-- The environment of one run: the current working directory (the project
root) and a finite filesystem keyed by absolute path. -/
structure Env where
  cwd : AbsPath
  fs : List (AbsPath × FileState)

/-- First match of a key in an association list of files. -/
def fsFind : List (AbsPath × FileState) → AbsPath → Option FileState
  | [], _ => none
  | e :: rest, p => if e.1 = p then some e.2 else fsFind rest p

/-- Look a path up in the filesystem. -/
def lookupFS (env : Env) (p : AbsPath) : Option FileState :=
  fsFind env.fs p

/-- os.path.isfile in the model. -/
def isfile (env : Env) (p : AbsPath) : Bool :=
  (lookupFS env p).isSome

/-- A diagnostic printed to stderr by the resolver. -/
inductive Diag where
  | fileNotFound (rel : String)
  | readError (rel : String)
  | relpathWarn (ref : String)
  | entryNotFound (entry : String)
deriving DecidableEq

/-- Traversal state of collect_dependencies: visited_set, processed_order,
deps (an insertion-ordered association list, as OrderedDict), the bibs and
images sets (as insertion-ordered duplicate-free lists) and the
diagnostics. -/
structure St where
  visited : List String
  processedOrder : List String
  deps : List (String × List String)
  bibs : List String
  images : List String
  diags : List Diag
deriving DecidableEq

/-- The empty starting state. -/
def emptySt : St := ⟨[], [], [], [], [], []⟩

/-- deps.get rel []: the child list of a parent, empty when absent. -/
def depsGet : List (String × List String) → String → List String
  | [], _ => []
  | e :: rest, k => if e.1 = k then e.2 else depsGet rest k

/-- deps[k].append v. -/
def depsAppend (deps : List (String × List String)) (k : String)
    (v : String) : List (String × List String) :=
  deps.map (fun e => if e.1 = k then (e.1, e.2 ++ [v]) else e)

/-- Insert into a Python set modelled as a duplicate-free list. -/
def setInsert (l : List String) (x : String) : List String :=
  if x ∈ l then l else l ++ [x]

/-! ## Reference resolution -/

/-- Whether a single path segment carries a file extension in the sense of
os.path.splitext: some '.' occurs strictly after a non-dot character
(leading dots of the name do not start an extension). -/
def hasDotAfterNonDot : List Char → Bool
  | [] => false
  | c :: cs => if c = '.' then hasDotAfterNonDot cs else cs.contains '.'

/-- The last segment of a reference (os.path.splitext only examines the
part after the final separator). -/
def lastSeg (r : Ref) : String :=
  (r.segs.getLast?).getD ""

/-- ref has a nonempty splitext extension. -/
def refHasExt (r : Ref) : Bool :=
  hasDotAfterNonDot (lastSeg r).data

/-- Append a suffix to the final segment of a reference (the script's
string concatenation ref_path + ext). -/
def appendToLast (r : Ref) (suf : String) : Ref :=
  ⟨r.drive, r.segs.dropLast ++ [((r.segs.getLast?).getD "") ++ suf]⟩

/-- resolve_tex_path (lines 107-117): resolve a reference against a base
directory, appending ".tex" only when splitext reports no extension. -/
def resolve_tex_path (baseDir : AbsPath) (r : Ref) : AbsPath :=
  absJoinNorm baseDir (if refHasExt r then r else appendToLast r ".tex")

/-- normalize_path (lines 119-129): project-relative forward-slash path of
a reference joined to a base directory; on relpath ValueError, warn and
fall back to the reference string itself. -/
def normalize_path (env : Env) (baseDir : AbsPath) (r : Ref) :
    String × List Diag :=
  match relpathOpt env.cwd (absJoinNorm baseDir r) with
  | some segs => (segsToString segs, [])
  | none => (refString r, [Diag.relpathWarn (refString r)])

/-- The bibliography file reference: ".bib" is appended unless the
reference already ends in ".bib" case-insensitively (line 196). -/
def bibFileRef (r : Ref) : Ref :=
  if endsWithChars ((lastSeg r).data.map lowerAscii) ['.', 'b', 'i', 'b'] then r
  else appendToLast r ".bib"

/-- The string recorded for one bibliography reference (lines 195-211):
resolve against the containing directory, fall back to the project root,
and when found in neither place (or when relpath fails) keep the
unresolved bib_file string. -/
def bibRecordString (env : Env) (currentDir : AbsPath) (r : Ref) : String :=
  let bf := bibFileRef r
  let bibAbs := absJoinNorm currentDir bf
  if isfile env bibAbs then
    match relpathOpt env.cwd bibAbs with
    | some segs => segsToString segs
    | none => refString bf
  else
    let bibAbsRoot := absJoinNorm env.cwd bf
    if isfile env bibAbsRoot then
      match relpathOpt env.cwd bibAbsRoot with
      | some segs => segsToString segs
      | none => refString bf
    else refString bf

/-! ## The recursive traversal (collect_dependencies / recurse) -/

/-- One iteration of the include loop (lines 173-191): resolve the child
against the parent's directory, silently skip it when relpath raises
(lines 178-179 contain a bare continue and no print), drop excluded
children, record the dependency edge once, and recurse into unvisited
children through the supplied recursion function. -/
def includeStep (env : Env) (pats : List String) (parentRel : String)
    (currentDir : AbsPath) (rec_ : AbsPath → St → St) (st : St) (r : Ref) :
    St :=
  let childAbs := resolve_tex_path currentDir r
  match relpathOpt env.cwd childAbs with
  | none => st
  | some segs =>
    let childRel := segsToString segs
    if matches_any childRel pats then st
    else
      let st1 :=
        if childRel ∈ depsGet st.deps parentRel then st
        else { st with deps := depsAppend st.deps parentRel childRel }
      if childRel ∈ st1.visited then st1 else rec_ childAbs st1

/-- The include loop over a document's inclusion references. -/
def includesLoop (env : Env) (pats : List String) (parentRel : String)
    (currentDir : AbsPath) (rec_ : AbsPath → St → St) :
    List Ref → St → St
  | [], st => st
  | r :: rs, st =>
    includesLoop env pats parentRel currentDir rec_ rs
      (includeStep env pats parentRel currentDir rec_ st r)

/-- One iteration of the bibliography loop (lines 195-214). -/
def bibStep (env : Env) (pats : List String) (currentDir : AbsPath)
    (st : St) (r : Ref) : St :=
  let s := bibRecordString env currentDir r
  if matches_any s pats then st else { st with bibs := setInsert st.bibs s }

/-- The bibliography loop. -/
def bibsLoop (env : Env) (pats : List String) (currentDir : AbsPath) :
    List Ref → St → St
  | [], st => st
  | r :: rs, st => bibsLoop env pats currentDir rs (bibStep env pats currentDir st r)

/-- One iteration of the graphics loop (lines 218-224): normalize_path's
warning is emitted before the exclusion check. -/
def imgStep (env : Env) (pats : List String) (currentDir : AbsPath)
    (st : St) (r : Ref) : St :=
  let nd := normalize_path env currentDir r
  let st1 := { st with diags := st.diags ++ nd.2 }
  if matches_any nd.1 pats then st1
  else { st1 with images := setInsert st1.images nd.1 }

/-- The graphics loop. -/
def imgsLoop (env : Env) (pats : List String) (currentDir : AbsPath) :
    List Ref → St → St
  | [], st => st
  | r :: rs, st => imgsLoop env pats currentDir rs (imgStep env pats currentDir st r)

/-- recurse (lines 139-224), fuelled.  A call with exhausted fuel returns
the state unchanged; collect_dependencies supplies fuel proved sufficient.
Steps in source order: compute the project-relative path (silent return on
ValueError; the warning at line 143 is commented out), return when visited
or excluded, record-and-warn on a missing file, mark visited / processed /
deps before reading, warn-and-return when the file is unreadable, and
otherwise run the three extraction loops over the document. -/
def recurse (env : Env) (pats : List String) : Nat → AbsPath → St → St
  | 0, _, st => st
  | fuel + 1, pathAbs, st =>
    match relpathOpt env.cwd pathAbs with
    | none => st
    | some segs =>
      let relPath := segsToString segs
      if relPath ∈ st.visited ∨ matches_any relPath pats = true then st
      else
        match lookupFS env pathAbs with
        | none =>
          { st with visited := st.visited ++ [relPath],
                    diags := st.diags ++ [Diag.fileNotFound relPath] }
        | some FileState.unreadable =>
          { st with visited := st.visited ++ [relPath],
                    processedOrder := st.processedOrder ++ [relPath],
                    deps := st.deps ++ [(relPath, [])],
                    diags := st.diags ++ [Diag.readError relPath] }
        | some (FileState.readable doc) =>
          let st1 := { st with visited := st.visited ++ [relPath],
                               processedOrder := st.processedOrder ++ [relPath],
                               deps := st.deps ++ [(relPath, [])] }
          let dir := dirname pathAbs
          let st2 := includesLoop env pats relPath dir
            (recurse env pats fuel) doc.includes st1
          let st3 := bibsLoop env pats dir doc.bibRefs st2
          imgsLoop env pats dir doc.imgRefs st3

/-- The entry loop of collect_dependencies (lines 226-233): each entry is
resolved against the initial working directory; a missing entry is skipped
with a diagnostic. -/
def entriesLoop (env : Env) (pats : List String) (fuel : Nat) :
    List Ref → St → St
  | [], st => st
  | e :: es, st =>
    let entryAbs := absJoinNorm env.cwd e
    let st' :=
      if isfile env entryAbs then recurse env pats fuel entryAbs st
      else { st with diags := st.diags ++ [Diag.entryNotFound (refString e)] }
    entriesLoop env pats fuel es st'

/-- True lexicographic (code-point) comparison of strings, as Python's
sorted uses on str. -/
def charsLe : List Char → List Char → Bool
  | [], _ => true
  | _ :: _, [] => false
  | a :: as, b :: bs => decide (a < b) || ((a = b) && charsLe as bs)

/-- Insert into a lexicographically sorted list. -/
def insertSorted (x : String) : List String → List String
  | [] => [x]
  | y :: ys => if charsLe x.data y.data then x :: y :: ys else y :: insertSorted x ys

/-- sorted (list s) for a list of strings. -/
def sortStrings (l : List String) : List String :=
  l.foldr insertSorted []

/-- The result quadruple of collect_dependencies, plus the diagnostics the
run printed. -/
structure ResolveResult where
  visitedOrder : List String
  deps : List (String × List String)
  bibs : List String
  images : List String
  diags : List Diag
deriving DecidableEq

/-- Fuel with which collect_dependencies runs recurse: one more than the
number of filesystem entries, an upper bound on the recursion depth. -/
def defaultFuel (env : Env) : Nat :=
  env.fs.length + 1

/-- collect_dependencies with explicit fuel (used to state that the
traversal terminates: larger fuel changes nothing). -/
def collectWithFuel (env : Env) (entries : List Ref) (pats : List String)
    (fuel : Nat) : ResolveResult :=
  let st := entriesLoop env pats fuel entries emptySt
  ⟨st.processedOrder, st.deps, sortStrings st.bibs, sortStrings st.images,
    st.diags⟩

/-- collect_dependencies (lines 131-235): processed_order, deps,
sorted bibs, sorted images. -/
def collect_dependencies (env : Env) (entries : List Ref)
    (pats : List String) : ResolveResult :=
  collectWithFuel env entries pats (defaultFuel env)

/-- Observable outcome of main (lines 386-443) for a run whose entries are
supplied via the entry flag and whose output directory is writable: the
resolution result, whether the everything-empty warning was printed, and
the exit status.  After collect_dependencies, main only warns when nothing
was found (lines 419-420) and then proceeds to write output, finishing
with status 0; no failure of individual entries is fatal. -/
structure MainResult where
  res : ResolveResult
  warnedEmpty : Bool
  status : Nat
deriving DecidableEq

/-- Model of main's resolution phase (entries supplied, writes succeed). -/
def mainRun (env : Env) (entries : List Ref) (pats : List String) :
    MainResult :=
  let r := collect_dependencies env entries pats
  { res := r,
    warnedEmpty := r.visitedOrder.isEmpty && r.bibs.isEmpty && r.images.isEmpty,
    status := 0 }

/-! ## Notions used by the invariant proofs -/

/-- Everything recorded in the first state is still recorded in the
second. -/
structure StMono (a b : St) : Prop where
  visited : ∀ x ∈ a.visited, x ∈ b.visited
  po : ∀ x ∈ a.processedOrder, x ∈ b.processedOrder
  bibs : ∀ x ∈ a.bibs, x ∈ b.bibs
  images : ∀ x ∈ a.images, x ∈ b.images
  diags : ∀ x ∈ a.diags, x ∈ b.diags
  depsv : ∀ k x, x ∈ depsGet a.deps k → x ∈ depsGet b.deps k
  depsk : ∀ k ∈ a.deps.map Prod.fst, k ∈ b.deps.map Prod.fst

/-- The project-relative strings of all filesystem entries (entries on a
foreign drive have none). -/
def fsRels (env : Env) : List String :=
  env.fs.filterMap (fun e => (relpathOpt env.cwd e.1).map segsToString)

/-- A well-formed filesystem for identification arguments: distinct
entries have distinct project-relative strings. -/
def WFEnv (env : Env) : Prop :=
  (fsRels env).Nodup

/-- Termination measure: how many filesystem entries are not yet in the
visited set. -/
def unvisitedCount (env : Env) (st : St) : Nat :=
  (fsRels env).countP (fun s => decide (¬ s ∈ st.visited))

/-- Invariant for claim C1: an excluded path is recorded nowhere. -/
def ExclInv (P : String) (st : St) : Prop :=
  P ∉ st.processedOrder ∧ (∀ e ∈ st.deps, P ∉ e.2) ∧ P ∉ st.bibs ∧
    P ∉ st.images

/-- Structural invariant of the traversal state: processing order is
duplicate-free and within the visited set, the adjacency keys are exactly
the processing order, every adjacency value list is duplicate-free, and
every processed path is the relative string of some filesystem entry. -/
structure BaseInv (env : Env) (st : St) : Prop where
  po_nodup : st.processedOrder.Nodup
  po_sub_visited : ∀ q ∈ st.processedOrder, q ∈ st.visited
  keys_eq : st.deps.map Prod.fst = st.processedOrder
  vals_nodup : ∀ e ∈ st.deps, e.2.Nodup
  po_in_fs : ∀ q ∈ st.processedOrder, q ∈ fsRels env

/-- s is the project-relative string of a readable filesystem entry. -/
def ReadableRel (env : Env) (s : String) : Prop :=
  ∃ (pAbs : AbsPath) (doc : Doc) (segs : List String),
    lookupFS env pAbs = some (FileState.readable doc) ∧
    relpathOpt env.cwd pAbs = some segs ∧ segsToString segs = s

/-- All obligations created by processing the document q are discharged in
state st: every non-excluded resolvable inclusion of a readable file at q
is an adjacency child of q, every non-excluded bibliography record is in
bibs, and an unreadable file at q has produced its read diagnostic. -/
def ObsOK (env : Env) (pats : List String) (q : String) (st : St) : Prop :=
  (∀ (pAbs : AbsPath) (doc : Doc) (segs : List String),
    lookupFS env pAbs = some (FileState.readable doc) →
    relpathOpt env.cwd pAbs = some segs → segsToString segs = q →
      (∀ r ∈ doc.includes, ∀ csegs,
        relpathOpt env.cwd (resolve_tex_path (dirname pAbs) r) = some csegs →
        matches_any (segsToString csegs) pats = false →
        segsToString csegs ∈ depsGet st.deps q) ∧
      (∀ r ∈ doc.bibRefs,
        matches_any (bibRecordString env (dirname pAbs) r) pats = false →
        bibRecordString env (dirname pAbs) r ∈ st.bibs) ∧
      (∀ r ∈ doc.imgRefs,
        matches_any (normalize_path env (dirname pAbs) r).1 pats = false →
        (normalize_path env (dirname pAbs) r).1 ∈ st.images)) ∧
  (∀ (pAbs : AbsPath) (segs : List String),
    lookupFS env pAbs = some FileState.unreadable →
    relpathOpt env.cwd pAbs = some segs → segsToString segs = q →
    Diag.readError q ∈ st.diags)

/-- The adjacency list of every unreadable file's relative path stays
empty: unreadable files are never expanded. -/
def UEInv (env : Env) (st : St) : Prop :=
  ∀ (pAbs : AbsPath) (segs : List String),
    lookupFS env pAbs = some FileState.unreadable →
    relpathOpt env.cwd pAbs = some segs →
    depsGet st.deps (segsToString segs) = []

/-- One inclusion edge of the document graph, between project-relative
path strings. -/
def IncludeEdge (env : Env) (a b : String) : Prop :=
  ∃ (pAbs : AbsPath) (doc : Doc) (r : Ref) (segs csegs : List String),
    lookupFS env pAbs = some (FileState.readable doc) ∧
    relpathOpt env.cwd pAbs = some segs ∧ segsToString segs = a ∧
    r ∈ doc.includes ∧
    relpathOpt env.cwd (resolve_tex_path (dirname pAbs) r) = some csegs ∧
    segsToString csegs = b

/-- A document that directly or transitively includes itself. -/
def SelfIncluding (env : Env) (d : String) : Prop :=
  Relation.TransGen (IncludeEdge env) d d

/-! ## Concrete environments used by individual claims -/

/-- The environment of the spec's relative-resolution example, with a
decoy: the project root also holds a sibling.tex that must NOT be picked
up. -/
def envC4 : Env :=
  ⟨⟨0, ["pr"]⟩,
    [(⟨0, ["pr", "a", "b", "doc.tex"]⟩,
        FileState.readable ⟨[⟨none, ["sibling"]⟩], [], []⟩),
      (⟨0, ["pr", "a", "b", "sibling.tex"]⟩, FileState.readable ⟨[], [], []⟩),
      (⟨0, ["pr", "sibling.tex"]⟩, FileState.readable ⟨[], [], []⟩)]⟩

/-- Witness environment for C1: main.tex references an excluded log file
that exists on disk. -/
def envC1 : Env :=
  ⟨⟨0, ["p"]⟩,
    [(⟨0, ["p", "main.tex"]⟩,
        FileState.readable ⟨[⟨none, ["x.log"]⟩], [], []⟩),
      (⟨0, ["p", "x.log"]⟩, FileState.readable ⟨[], [], []⟩)]⟩

/-- Witness environment for C2: main.tex includes itself. -/
def envC2 : Env :=
  ⟨⟨0, ["p"]⟩,
    [(⟨0, ["p", "main.tex"]⟩,
        FileState.readable ⟨[⟨none, ["main"]⟩], [], []⟩)]⟩

/-- Scenario environment for C6: d/main.tex references bibliography refs
(no extension) and d/refs.bib exists in the containing directory. -/
def envC6dir : Env :=
  ⟨⟨0, ["p"]⟩,
    [(⟨0, ["p", "d", "main.tex"]⟩,
        FileState.readable ⟨[], [⟨none, ["refs"]⟩], []⟩),
      (⟨0, ["p", "d", "refs.bib"]⟩, FileState.readable ⟨[], [], []⟩)]⟩

/-- Counterexample environment for C6: main.tex references bibliography
refs and refs.bib exists nowhere. -/
def envC6missing : Env :=
  ⟨⟨0, ["p"]⟩,
    [(⟨0, ["p", "main.tex"]⟩,
        FileState.readable ⟨[], [⟨none, ["refs"]⟩], []⟩)]⟩

/-- Counterexample environment for C7, variant A: the included child
exists but is unreadable. -/
def envC7unreadable : Env :=
  ⟨⟨0, ["p"]⟩,
    [(⟨0, ["p", "main.tex"]⟩,
        FileState.readable ⟨[⟨none, ["child"]⟩], [], []⟩),
      (⟨0, ["p", "child.tex"]⟩, FileState.unreadable)]⟩

/-- Counterexample environment for C7, variant B: the included child does
not exist on disk at all. -/
def envC7missing : Env :=
  ⟨⟨0, ["p"]⟩,
    [(⟨0, ["p", "main.tex"]⟩,
        FileState.readable ⟨[⟨none, ["child"]⟩], [], []⟩)]⟩

/-- Counterexample environment for C8: the only supplied entry will not
exist (the filesystem is empty). -/
def envC8 : Env :=
  ⟨⟨0, ["p"]⟩, []⟩

/-- Counterexample environment for C9: main.tex holds a reference to an
unrelated filesystem root (drive 1) followed by an ordinary sibling. -/
def envC9 : Env :=
  ⟨⟨0, ["p"]⟩,
    [(⟨0, ["p", "main.tex"]⟩,
        FileState.readable ⟨[⟨some 1, ["x", "y"]⟩, ⟨none, ["ok"]⟩], [], []⟩),
      (⟨0, ["p", "ok.tex"]⟩, FileState.readable ⟨[], [], []⟩)]⟩

/-- Witness environment for C10: main.tex includes a child that does not
exist on disk. -/
def envC10 : Env :=
  ⟨⟨0, ["p"]⟩,
    [(⟨0, ["p", "main.tex"]⟩,
        FileState.readable ⟨[⟨none, ["missing"]⟩], [], []⟩)]⟩

/-! ## Claim C5: the exclusion matcher's three-mode contract -/

theorem any_eq_of_perm {α : Type} (f : α → Bool) {l₁ l₂ : List α}
    (h : l₁.Perm l₂) : l₁.any f = l₂.any f := by
  cases e₁ : l₁.any f with
  | true =>
    rcases List.any_eq_true.mp e₁ with ⟨x, hx, hfx⟩
    exact (List.any_eq_true.mpr ⟨x, h.mem_iff.mp hx, hfx⟩).symm
  | false =>
    cases e₂ : l₂.any f with
    | true =>
      rcases List.any_eq_true.mp e₂ with ⟨x, hx, hfx⟩
      exact absurd (List.any_eq_true.mpr ⟨x, h.mem_iff.mpr hx, hfx⟩)
        (by simp [e₁])
    | false => rfl

/-- C5.  matches_any path patterns is true exactly when some pattern
matches the (already forward-slash normalized) path by a full-path glob
match, a basename glob match, or — for a pattern ending in the separator
'/' — an exact string-prefix test; and the result is invariant under
reordering of the pattern set.  It is a pure function of its two
arguments, with no filesystem access in its definition. -/
theorem C5_matcher_three_modes (p : String) (pats : List String) :
    ((matches_any p pats = true) ↔ ∃ pat ∈ pats,
      fnmatchB p pat = true ∨ fnmatchB (basename p) pat = true ∨
        (endsWithChars pat.data ['/'] = true ∧
          startsWithChars p.data pat.data = true))
    ∧ (∀ pats' : List String, pats.Perm pats' →
        matches_any p pats' = matches_any p pats) := by
  constructor
  · unfold matches_any
    rw [List.any_eq_true]
    constructor
    · rintro ⟨pat, hmem, hpat⟩
      refine ⟨pat, hmem, ?_⟩
      simpa [Bool.or_eq_true, Bool.and_eq_true, or_assoc] using hpat
    · rintro ⟨pat, hmem, hpat⟩
      refine ⟨pat, hmem, ?_⟩
      simpa [Bool.or_eq_true, Bool.and_eq_true, or_assoc] using hpat
  · intro pats' hperm
    exact any_eq_of_perm _ hperm.symm

/-- Closed instance of C5: a basename glob pattern matches a file at any
depth, and swapping the pattern list changes nothing. -/
theorem C5_matcher_witness :
    matches_any "a/b.log" ["docs/", "*.log"] = true ∧
      matches_any "a/b.log" ["*.log", "docs/"] =
        matches_any "a/b.log" ["docs/", "*.log"] :=
  ⟨(C5_matcher_three_modes "a/b.log" ["docs/", "*.log"]).1.mpr
      ⟨"*.log", by decide, Or.inl (by decide)⟩,
    (C5_matcher_three_modes "a/b.log" ["docs/", "*.log"]).2
      ["*.log", "docs/"] (by decide)⟩

/-! ## Claim C4: resolution relative to the parent's directory, with the
default document extension -/

/-- C4.  A child reference is resolved against the parent document's
containing directory (the parent's path without its final segment), with
".tex" appended to the reference's final segment exactly when the
reference has no splitext extension; concretely, a/b/doc.tex referencing
sibling resolves to a/b/sibling.tex even when sibling.tex also exists at
the project root. -/
theorem C4_relative_resolution :
    (∀ (parentAbs : AbsPath) (r : Ref), r.drive = none →
      refHasExt r = false →
        resolve_tex_path (dirname parentAbs) r =
          ⟨parentAbs.drive,
            normSegs (parentAbs.segs.dropLast ++
              (r.segs.dropLast ++ [(r.segs.getLast?).getD "" ++ ".tex"]))⟩)
    ∧ (∀ (parentAbs : AbsPath) (r : Ref), r.drive = none →
      refHasExt r = true →
        resolve_tex_path (dirname parentAbs) r =
          ⟨parentAbs.drive, normSegs (parentAbs.segs.dropLast ++ r.segs)⟩)
    ∧ ((collect_dependencies envC4 [⟨none, ["a", "b", "doc.tex"]⟩]
          []).visitedOrder = ["a/b/doc.tex", "a/b/sibling.tex"]
        ∧ depsGet (collect_dependencies envC4 [⟨none, ["a", "b", "doc.tex"]⟩]
            []).deps "a/b/doc.tex" = ["a/b/sibling.tex"]
        ∧ "sibling.tex" ∉ (collect_dependencies envC4
            [⟨none, ["a", "b", "doc.tex"]⟩] []).visitedOrder) := by
  refine ⟨?_, ?_, by decide, by decide, by decide⟩
  · intro parentAbs r hdrive hext
    simp [resolve_tex_path, hext, absJoinNorm, hdrive, appendToLast, dirname]
  · intro parentAbs r hdrive hext
    simp [resolve_tex_path, hext, absJoinNorm, hdrive, dirname]

/-- Closed instance of C4: the extension-appending equation evaluated for
the reference "sibling" under parent a/b/doc.tex. -/
theorem C4_relative_resolution_witness :
    resolve_tex_path (dirname ⟨0, ["pr", "a", "b", "doc.tex"]⟩)
        ⟨none, ["sibling"]⟩ = ⟨0, ["pr", "a", "b", "sibling.tex"]⟩ := by
  have h := C4_relative_resolution.1 ⟨0, ["pr", "a", "b", "doc.tex"]⟩
    ⟨none, ["sibling"]⟩ rfl (by decide)
  rw [h]
  decide

/-! ## Lemmas about the small data operations -/

theorem mem_insertSorted {x y : String} {l : List String} :
    x ∈ insertSorted y l ↔ x = y ∨ x ∈ l := by
  induction l with
  | nil => simp [insertSorted]
  | cons z zs ih =>
    simp only [insertSorted]
    split
    · simp [List.mem_cons]
    · simp only [List.mem_cons, ih]
      tauto

theorem mem_sortStrings {x : String} {l : List String} :
    x ∈ sortStrings l ↔ x ∈ l := by
  induction l with
  | nil => simp [sortStrings]
  | cons z zs ih =>
    show x ∈ insertSorted z (sortStrings zs) ↔ _
    rw [mem_insertSorted, ih]
    simp [List.mem_cons]

theorem mem_setInsert {x y : String} {l : List String} :
    x ∈ setInsert l y ↔ x = y ∨ x ∈ l := by
  by_cases h : y ∈ l
  · simp only [setInsert, if_pos h]
    constructor
    · exact Or.inr
    · rintro (rfl | hx) <;> [exact h; exact hx]
  · simp [setInsert, if_neg h, List.mem_append, or_comm]

theorem setInsert_nodup {y : String} {l : List String} (h : l.Nodup) :
    (setInsert l y).Nodup := by
  by_cases hy : y ∈ l
  · simpa [setInsert, if_pos hy] using h
  · rw [setInsert, if_neg hy]
    refine List.nodup_append.mpr ⟨h, List.nodup_singleton y, ?_⟩
    intro a ha hb
    rw [List.mem_singleton] at hb
    exact hy (hb ▸ ha)

theorem depsGet_append_empty (deps : List (String × List String))
    (k k' : String) : depsGet (deps ++ [(k, [])]) k' = depsGet deps k' := by
  induction deps with
  | nil => simp only [List.nil_append, depsGet]; split <;> rfl
  | cons e rest ih => simp only [List.cons_append, depsGet]; split <;> simp [ih]

theorem depsAppend_keys (deps : List (String × List String))
    (k : String) (v : String) :
    (depsAppend deps k v).map Prod.fst = deps.map Prod.fst := by
  induction deps with
  | nil => rfl
  | cons e rest ih =>
    have hcons : depsAppend (e :: rest) k v =
        (if e.1 = k then (e.1, e.2 ++ [v]) else e) :: depsAppend rest k v := rfl
    rw [hcons, List.map_cons, List.map_cons, ih]
    by_cases he : e.1 = k
    · rw [if_pos he]
    · rw [if_neg he]

theorem depsAppend_get_ne {deps : List (String × List String)}
    {k v k' : String} (h : k' ≠ k) :
    depsGet (depsAppend deps k v) k' = depsGet deps k' := by
  induction deps with
  | nil => rfl
  | cons e rest ih =>
    have hcons : depsAppend (e :: rest) k v =
        (if e.1 = k then (e.1, e.2 ++ [v]) else e) :: depsAppend rest k v := rfl
    rw [hcons]
    by_cases he : e.1 = k
    · rw [if_pos he]
      have hne : ¬ (e.1 = k') := fun hc => h (hc.symm.trans he)
      show (if e.1 = k' then e.2 ++ [v] else depsGet (depsAppend rest k v) k')
          = depsGet (e :: rest) k'
      rw [if_neg hne]
      show _ = if e.1 = k' then e.2 else depsGet rest k'
      rw [if_neg hne, ih]
    · rw [if_neg he]
      show (if e.1 = k' then e.2 else depsGet (depsAppend rest k v) k')
          = if e.1 = k' then e.2 else depsGet rest k'
      by_cases hk' : e.1 = k'
      · rw [if_pos hk', if_pos hk']
      · rw [if_neg hk', if_neg hk', ih]

theorem depsAppend_get_mem {deps : List (String × List String)}
    {k : String} (v : String) (hmem : k ∈ deps.map Prod.fst) :
    depsGet (depsAppend deps k v) k = depsGet deps k ++ [v] := by
  induction deps with
  | nil => simp at hmem
  | cons e rest ih =>
    simp only [depsAppend, depsGet]
    by_cases he : e.1 = k
    · simp [depsGet, if_pos he, he]
    · rw [if_neg he]
      simp only [depsGet, if_neg he]
      simp only [List.map_cons, List.mem_cons] at hmem
      rcases hmem with h | h
      · exact absurd h.symm he
      · exact ih h

theorem depsAppend_id {deps : List (String × List String)}
    {k : String} (v : String) (hmem : k ∉ deps.map Prod.fst) :
    depsAppend deps k v = deps := by
  induction deps with
  | nil => rfl
  | cons e rest ih =>
    simp only [List.map_cons, List.mem_cons, not_or] at hmem
    have hcons : depsAppend (e :: rest) k v =
        (if e.1 = k then (e.1, e.2 ++ [v]) else e) :: depsAppend rest k v := rfl
    rw [hcons, if_neg (fun hc => hmem.1 hc.symm), ih hmem.2]

theorem depsAppend_get_mono {deps : List (String × List String)}
    {k' x : String} (k v : String) (h : x ∈ depsGet deps k') :
    x ∈ depsGet (depsAppend deps k v) k' := by
  by_cases hk : k' = k
  · subst hk
    by_cases hmem : k' ∈ deps.map Prod.fst
    · rw [depsAppend_get_mem v hmem]
      exact List.mem_append_left _ h
    · rw [depsAppend_id v hmem]
      exact h
  · rwa [depsAppend_get_ne hk]

theorem depsAppend_get_sub {deps : List (String × List String)}
    {k v k' x : String} (h : x ∈ depsGet (depsAppend deps k v) k') :
    x ∈ depsGet deps k' ∨ (k' = k ∧ x = v) := by
  by_cases hk : k' = k
  · subst hk
    by_cases hmem : k' ∈ deps.map Prod.fst
    · rw [depsAppend_get_mem v hmem] at h
      rcases List.mem_append.mp h with h | h
      · exact Or.inl h
      · exact Or.inr ⟨rfl, List.mem_singleton.mp h⟩
    · rw [depsAppend_id v hmem] at h
      exact Or.inl h
  · rw [depsAppend_get_ne hk] at h
    exact Or.inl h

theorem depsGet_mem_entry {deps : List (String × List String)}
    {k x : String} (h : x ∈ depsGet deps k) :
    ∃ e ∈ deps, e.1 = k ∧ x ∈ e.2 := by
  induction deps with
  | nil => simp [depsGet] at h
  | cons e rest ih =>
    simp only [depsGet] at h
    by_cases he : e.1 = k
    · rw [if_pos he] at h
      exact ⟨e, List.mem_cons_self _ _, he, h⟩
    · rw [if_neg he] at h
      rcases ih h with ⟨e₀, he₀, hk, hx⟩
      exact ⟨e₀, List.mem_cons_of_mem _ he₀, hk, hx⟩

theorem depsAppend_entry_mem {deps : List (String × List String)}
    {k v : String} {e : String × List String} (he : e ∈ depsAppend deps k v) :
    ∃ e₀ ∈ deps, e.1 = e₀.1 ∧ (e.2 = e₀.2 ∨ e.2 = e₀.2 ++ [v]) := by
  rcases List.mem_map.mp he with ⟨e₀, he₀, hf⟩
  by_cases hk : e₀.1 = k
  · rw [if_pos hk] at hf
    exact ⟨e₀, he₀, by rw [← hf], Or.inr (by rw [← hf])⟩
  · rw [if_neg hk] at hf
    exact ⟨e₀, he₀, by rw [hf], Or.inl (by rw [hf])⟩

theorem fsFind_mem {fs : List (AbsPath × FileState)} {p : AbsPath}
    {s : FileState} (h : fsFind fs p = some s) : (p, s) ∈ fs := by
  induction fs with
  | nil => simp [fsFind] at h
  | cons e rest ih =>
    simp only [fsFind] at h
    by_cases he : e.1 = p
    · rw [if_pos he] at h
      have : e = (p, s) := by
        cases e
        simp only [Option.some.injEq] at h
        simp_all
      exact this ▸ List.mem_cons_self _ _
    · rw [if_neg he] at h
      exact List.mem_cons_of_mem _ (ih h)

/-! ## Monotonicity of the traversal: a run only ever adds to the
collections -/

theorem StMono.refl (a : St) : StMono a a :=
  ⟨fun _ h => h, fun _ h => h, fun _ h => h, fun _ h => h, fun _ h => h,
    fun _ _ h => h, fun _ h => h⟩

theorem StMono.trans {a b c : St} (h₁ : StMono a b) (h₂ : StMono b c) :
    StMono a c :=
  ⟨fun x h => h₂.visited x (h₁.visited x h),
    fun x h => h₂.po x (h₁.po x h),
    fun x h => h₂.bibs x (h₁.bibs x h),
    fun x h => h₂.images x (h₁.images x h),
    fun x h => h₂.diags x (h₁.diags x h),
    fun k x h => h₂.depsv k x (h₁.depsv k x h),
    fun k h => h₂.depsk k (h₁.depsk k h)⟩

theorem includeStep_mono {env : Env} {pats : List String} {parentRel : String}
    {dir : AbsPath} {rec_ : AbsPath → St → St}
    (hrec : ∀ p st, StMono st (rec_ p st)) (st : St) (r : Ref) :
    StMono st (includeStep env pats parentRel dir rec_ st r) := by
  simp only [includeStep]
  cases hrp : relpathOpt env.cwd (resolve_tex_path dir r) with
  | none => exact StMono.refl st
  | some segs =>
    dsimp only
    by_cases hm : matches_any (segsToString segs) pats = true
    · simp only [if_pos hm]
      exact StMono.refl st
    · simp only [if_neg hm]
      by_cases hdep : segsToString segs ∈ depsGet st.deps parentRel
      · simp only [if_pos hdep]
        by_cases hv : segsToString segs ∈ st.visited
        · simp only [if_pos hv]
          exact StMono.refl st
        · simp only [if_neg hv]
          exact hrec _ _
      · simp only [if_neg hdep]
        have hstep : StMono st
            { st with deps := depsAppend st.deps parentRel (segsToString segs) } :=
          { (StMono.refl st) with
            depsv := fun k x h => depsAppend_get_mono _ _ h,
            depsk := fun k h => by
              simpa [depsAppend_keys] using h }
        by_cases hv : segsToString segs ∈ st.visited
        · simp only [if_pos hv]
          exact hstep
        · simp only [if_neg hv]
          exact hstep.trans (hrec _ _)

theorem includesLoop_mono {env : Env} {pats : List String} {parentRel : String}
    {dir : AbsPath} {rec_ : AbsPath → St → St}
    (hrec : ∀ p st, StMono st (rec_ p st)) :
    ∀ (refs : List Ref) (st : St),
      StMono st (includesLoop env pats parentRel dir rec_ refs st) := by
  intro refs
  induction refs with
  | nil => intro st; exact StMono.refl st
  | cons r rs ih =>
    intro st
    exact (includeStep_mono hrec st r).trans (ih _)

theorem bibStep_mono (env : Env) (pats : List String) (dir : AbsPath)
    (st : St) (r : Ref) : StMono st (bibStep env pats dir st r) := by
  unfold bibStep
  by_cases hm : matches_any (bibRecordString env dir r) pats
  · simp only [hm, if_true]
    exact StMono.refl st
  · simp only [hm, if_false]
    exact { (StMono.refl st) with
      bibs := fun x h => mem_setInsert.mpr (Or.inr h) }

theorem bibsLoop_mono (env : Env) (pats : List String) (dir : AbsPath) :
    ∀ (refs : List Ref) (st : St), StMono st (bibsLoop env pats dir refs st) := by
  intro refs
  induction refs with
  | nil => intro st; exact StMono.refl st
  | cons r rs ih =>
    intro st
    exact (bibStep_mono env pats dir st r).trans (ih _)

theorem imgStep_mono (env : Env) (pats : List String) (dir : AbsPath)
    (st : St) (r : Ref) : StMono st (imgStep env pats dir st r) := by
  unfold imgStep
  by_cases hm : matches_any (normalize_path env dir r).1 pats
  · simp only [hm, if_true]
    exact { (StMono.refl st) with
      diags := fun x h => List.mem_append_left _ h }
  · simp only [hm, if_false]
    exact { (StMono.refl st) with
      diags := fun x h => List.mem_append_left _ h,
      images := fun x h => mem_setInsert.mpr (Or.inr h) }

theorem imgsLoop_mono (env : Env) (pats : List String) (dir : AbsPath) :
    ∀ (refs : List Ref) (st : St), StMono st (imgsLoop env pats dir refs st) := by
  intro refs
  induction refs with
  | nil => intro st; exact StMono.refl st
  | cons r rs ih =>
    intro st
    exact (imgStep_mono env pats dir st r).trans (ih _)

theorem recurse_mono (env : Env) (pats : List String) :
    ∀ (fuel : Nat) (p : AbsPath) (st : St),
      StMono st (recurse env pats fuel p st) := by
  intro fuel
  induction fuel with
  | zero => intro p st; exact StMono.refl st
  | succ fuel ih =>
    intro p st
    show StMono st (recurse env pats (fuel + 1) p st)
    simp only [recurse]
    cases hrp : relpathOpt env.cwd p with
    | none => exact StMono.refl st
    | some segs =>
      dsimp only
      by_cases hv : segsToString segs ∈ st.visited ∨
          matches_any (segsToString segs) pats = true
      · simp only [if_pos hv]
        exact StMono.refl st
      · simp only [if_neg hv]
        cases hfs : lookupFS env p with
        | none =>
          exact { (StMono.refl st) with
            visited := fun x h => List.mem_append_left _ h,
            diags := fun x h => List.mem_append_left _ h }
        | some fstate =>
          cases fstate with
          | unreadable =>
            exact { (StMono.refl st) with
              visited := fun x h => List.mem_append_left _ h,
              po := fun x h => List.mem_append_left _ h,
              diags := fun x h => List.mem_append_left _ h,
              depsv := fun k x h => by
                rw [depsGet_append_empty]; exact h,
              depsk := fun k h => by
                rw [List.map_append]; exact List.mem_append_left _ h }
          | readable doc =>
            refine StMono.trans (b := { st with
                visited := st.visited ++ [segsToString segs],
                processedOrder := st.processedOrder ++ [segsToString segs],
                deps := st.deps ++ [(segsToString segs, [])] }) ?_ ?_
            · exact { (StMono.refl st) with
                visited := fun x h => List.mem_append_left _ h,
                po := fun x h => List.mem_append_left _ h,
                depsv := fun k x h => by
                  rw [depsGet_append_empty]; exact h,
                depsk := fun k h => by
                  rw [List.map_append]; exact List.mem_append_left _ h }
            · exact ((includesLoop_mono ih _ _).trans
                (bibsLoop_mono env pats _ _ _)).trans (imgsLoop_mono env pats _ _ _)

theorem entriesLoop_mono (env : Env) (pats : List String) (fuel : Nat) :
    ∀ (es : List Ref) (st : St), StMono st (entriesLoop env pats fuel es st) := by
  intro es
  induction es with
  | nil => intro st; exact StMono.refl st
  | cons e rest ih =>
    intro st
    refine StMono.trans ?_ (ih _)
    by_cases hf : isfile env (absJoinNorm env.cwd e)
    · simp only [entriesLoop, if_pos hf]
      exact recurse_mono env pats fuel _ st
    · simp only [entriesLoop, if_neg hf]
      exact { (StMono.refl st) with
        diags := fun x h => List.mem_append_left _ h }

/-! ## Claim C1: exclusion consistency -/

theorem exclInv_includeStep {env : Env} {pats : List String}
    {parentRel : String} {dir : AbsPath} {rec_ : AbsPath → St → St}
    {P : String} (hP : matches_any P pats = true)
    (hrec : ∀ p st, ExclInv P st → ExclInv P (rec_ p st))
    (st : St) (r : Ref) (h : ExclInv P st) :
    ExclInv P (includeStep env pats parentRel dir rec_ st r) := by
  simp only [includeStep]
  cases hrp : relpathOpt env.cwd (resolve_tex_path dir r) with
  | none => exact h
  | some segs =>
    dsimp only
    by_cases hm : matches_any (segsToString segs) pats = true
    · simp only [if_pos hm]
      exact h
    · simp only [if_neg hm]
      have hne : P ≠ segsToString segs := fun he => hm (he ▸ hP)
      by_cases hdep : segsToString segs ∈ depsGet st.deps parentRel
      · simp only [if_pos hdep]
        by_cases hv : segsToString segs ∈ st.visited
        · simp only [if_pos hv]
          exact h
        · simp only [if_neg hv]
          exact hrec _ _ h
      · simp only [if_neg hdep]
        have h1 : ExclInv P
            { st with deps := depsAppend st.deps parentRel (segsToString segs) } := by
          obtain ⟨h1, h2, h3, h4⟩ := h
          refine ⟨h1, ?_, h3, h4⟩
          intro e he
          rcases depsAppend_entry_mem he with ⟨e₀, he₀, _, hv2 | hv2⟩
          · rw [hv2]
            exact h2 e₀ he₀
          · rw [hv2]
            intro hmem
            rcases List.mem_append.mp hmem with hmem | hmem
            · exact h2 e₀ he₀ hmem
            · exact hne (List.mem_singleton.mp hmem)
        by_cases hv : segsToString segs ∈ st.visited
        · simp only [if_pos hv]
          exact h1
        · simp only [if_neg hv]
          exact hrec _ _ h1

theorem exclInv_includesLoop {env : Env} {pats : List String}
    {parentRel : String} {dir : AbsPath} {rec_ : AbsPath → St → St}
    {P : String} (hP : matches_any P pats = true)
    (hrec : ∀ p st, ExclInv P st → ExclInv P (rec_ p st)) :
    ∀ (refs : List Ref) (st : St), ExclInv P st →
      ExclInv P (includesLoop env pats parentRel dir rec_ refs st) := by
  intro refs
  induction refs with
  | nil => intro st h; exact h
  | cons r rs ih =>
    intro st h
    exact ih _ (exclInv_includeStep hP hrec st r h)

theorem exclInv_bibStep {env : Env} {pats : List String} {dir : AbsPath}
    {P : String} (hP : matches_any P pats = true) (st : St) (r : Ref)
    (h : ExclInv P st) : ExclInv P (bibStep env pats dir st r) := by
  simp only [bibStep]
  by_cases hm : matches_any (bibRecordString env dir r) pats = true
  · simp only [if_pos hm]
    exact h
  · simp only [if_neg hm]
    obtain ⟨h1, h2, h3, h4⟩ := h
    refine ⟨h1, h2, ?_, h4⟩
    intro hmem
    rcases mem_setInsert.mp hmem with he | hmem
    · exact hm (he ▸ hP)
    · exact h3 hmem

theorem exclInv_bibsLoop {env : Env} {pats : List String} {dir : AbsPath}
    {P : String} (hP : matches_any P pats = true) :
    ∀ (refs : List Ref) (st : St), ExclInv P st →
      ExclInv P (bibsLoop env pats dir refs st) := by
  intro refs
  induction refs with
  | nil => intro st h; exact h
  | cons r rs ih =>
    intro st h
    exact ih _ (exclInv_bibStep hP st r h)

theorem exclInv_imgStep {env : Env} {pats : List String} {dir : AbsPath}
    {P : String} (hP : matches_any P pats = true) (st : St) (r : Ref)
    (h : ExclInv P st) : ExclInv P (imgStep env pats dir st r) := by
  simp only [imgStep]
  by_cases hm : matches_any (normalize_path env dir r).1 pats = true
  · simp only [if_pos hm]
    exact h
  · simp only [if_neg hm]
    obtain ⟨h1, h2, h3, h4⟩ := h
    refine ⟨h1, h2, h3, ?_⟩
    intro hmem
    rcases mem_setInsert.mp hmem with he | hmem
    · exact hm (he ▸ hP)
    · exact h4 hmem

theorem exclInv_imgsLoop {env : Env} {pats : List String} {dir : AbsPath}
    {P : String} (hP : matches_any P pats = true) :
    ∀ (refs : List Ref) (st : St), ExclInv P st →
      ExclInv P (imgsLoop env pats dir refs st) := by
  intro refs
  induction refs with
  | nil => intro st h; exact h
  | cons r rs ih =>
    intro st h
    exact ih _ (exclInv_imgStep hP st r h)

theorem exclInv_recurse {env : Env} {pats : List String} {P : String}
    (hP : matches_any P pats = true) :
    ∀ (fuel : Nat) (p : AbsPath) (st : St), ExclInv P st →
      ExclInv P (recurse env pats fuel p st) := by
  intro fuel
  induction fuel with
  | zero => intro p st h; exact h
  | succ fuel ih =>
    intro p st h
    simp only [recurse]
    cases hrp : relpathOpt env.cwd p with
    | none => exact h
    | some segs =>
      dsimp only
      by_cases hv : segsToString segs ∈ st.visited ∨
          matches_any (segsToString segs) pats = true
      · simp only [if_pos hv]
        exact h
      · simp only [if_neg hv]
        have hm : ¬ matches_any (segsToString segs) pats = true :=
          fun hc => hv (Or.inr hc)
        have hne : P ≠ segsToString segs := fun he => hm (he ▸ hP)
        obtain ⟨h1, h2, h3, h4⟩ := h
        have hrec : ExclInv P { st with
            visited := st.visited ++ [segsToString segs],
            processedOrder := st.processedOrder ++ [segsToString segs],
            deps := st.deps ++ [(segsToString segs, [])] } := by
          refine ⟨?_, ?_, h3, h4⟩
          · intro hmem
            rcases List.mem_append.mp hmem with hmem | hmem
            · exact h1 hmem
            · exact hne (List.mem_singleton.mp hmem)
          · intro e he
            rcases List.mem_append.mp he with he | he
            · exact h2 e he
            · rw [List.mem_singleton.mp he]
              simp
        cases hfs : lookupFS env p with
        | none => exact ⟨h1, h2, h3, h4⟩
        | some fstate =>
          cases fstate with
          | unreadable => exact ⟨hrec.1, hrec.2.1, h3, h4⟩
          | readable doc =>
            exact exclInv_imgsLoop hP _ _ (exclInv_bibsLoop hP _ _
              (exclInv_includesLoop hP ih _ _ hrec))

theorem exclInv_entriesLoop {env : Env} {pats : List String} {P : String}
    (hP : matches_any P pats = true) (fuel : Nat) :
    ∀ (es : List Ref) (st : St), ExclInv P st →
      ExclInv P (entriesLoop env pats fuel es st) := by
  intro es
  induction es with
  | nil => intro st h; exact h
  | cons e rest ih =>
    intro st h
    by_cases hf : isfile env (absJoinNorm env.cwd e)
    · simp only [entriesLoop, if_pos hf]
      exact ih _ (exclInv_recurse hP fuel _ st h)
    · simp only [entriesLoop, if_neg hf]
      exact ih _ ⟨h.1, h.2.1, h.2.2.1, h.2.2.2⟩

/-- C1.  Exclusion consistency: a path that matches the exclusion pattern
set never appears in visitedOrder, in any adjacency value list, in bibs,
or in images. -/
theorem C1_exclusion_consistency (env : Env) (entries : List Ref)
    (pats : List String) (P : String) (hP : matches_any P pats = true) :
    P ∉ (collect_dependencies env entries pats).visitedOrder ∧
    (∀ e ∈ (collect_dependencies env entries pats).deps, P ∉ e.2) ∧
    P ∉ (collect_dependencies env entries pats).bibs ∧
    P ∉ (collect_dependencies env entries pats).images := by
  have h0 : ExclInv P emptySt := by
    refine ⟨by simp [emptySt], ?_, by simp [emptySt], by simp [emptySt]⟩
    intro e he
    simp [emptySt] at he
  have h := @exclInv_entriesLoop env pats P hP (defaultFuel env) entries
    emptySt h0
  obtain ⟨h1, h2, h3, h4⟩ := h
  exact ⟨h1, h2, fun hc => h3 (mem_sortStrings.mp hc),
    fun hc => h4 (mem_sortStrings.mp hc)⟩

/-- Closed instance of C1: with pattern *.log, the referenced and existing
file x.log stays out of every output collection. -/
theorem C1_exclusion_consistency_witness :
    "x.log" ∉ (collect_dependencies envC1 [⟨none, ["main.tex"]⟩]
        ["*.log"]).visitedOrder ∧
    (∀ e ∈ (collect_dependencies envC1 [⟨none, ["main.tex"]⟩]
        ["*.log"]).deps, "x.log" ∉ e.2) ∧
    "x.log" ∉ (collect_dependencies envC1 [⟨none, ["main.tex"]⟩]
        ["*.log"]).bibs ∧
    "x.log" ∉ (collect_dependencies envC1 [⟨none, ["main.tex"]⟩]
        ["*.log"]).images :=
  C1_exclusion_consistency envC1 [⟨none, ["main.tex"]⟩] ["*.log"] "x.log"
    (by decide)

/-! ## Claim C3: no duplicates (structural invariant of the traversal) -/

theorem depsAppend_vals_nodup {deps : List (String × List String)}
    {k v : String} (hkeys : (deps.map Prod.fst).Nodup)
    (hvals : ∀ e ∈ deps, e.2.Nodup) (hnot : v ∉ depsGet deps k) :
    ∀ e ∈ depsAppend deps k v, e.2.Nodup := by
  induction deps with
  | nil => intro e he; simp [depsAppend] at he
  | cons e₀ rest ih =>
    have hcons : depsAppend (e₀ :: rest) k v =
        (if e₀.1 = k then (e₀.1, e₀.2 ++ [v]) else e₀) :: depsAppend rest k v := rfl
    rw [hcons]
    rw [List.map_cons, List.nodup_cons] at hkeys
    intro e he
    rcases List.mem_cons.mp he with rfl | he
    · by_cases h0 : e₀.1 = k
      · rw [if_pos h0]
        have hnot' : v ∉ e₀.2 := by
          have : depsGet (e₀ :: rest) k = e₀.2 := by
            show (if e₀.1 = k then e₀.2 else depsGet rest k) = e₀.2
            rw [if_pos h0]
          rw [this] at hnot
          exact hnot
        refine List.nodup_append.mpr
          ⟨hvals e₀ (List.mem_cons_self _ _), List.nodup_singleton v, ?_⟩
        intro a ha hb
        rw [List.mem_singleton] at hb
        exact hnot' (hb ▸ ha)
      · rw [if_neg h0]
        exact hvals e₀ (List.mem_cons_self _ _)
    · by_cases h0 : e₀.1 = k
      · rw [depsAppend_id v (h0 ▸ hkeys.1)] at he
        exact hvals e (List.mem_cons_of_mem _ he)
      · have hnot' : v ∉ depsGet rest k := by
          have : depsGet (e₀ :: rest) k = depsGet rest k := by
            show (if e₀.1 = k then e₀.2 else depsGet rest k) = depsGet rest k
            rw [if_neg h0]
          rw [this] at hnot
          exact hnot
        exact ih hkeys.2 (fun e' he' => hvals e' (List.mem_cons_of_mem _ he'))
          hnot' e he

theorem rel_mem_fsRels {env : Env} {p : AbsPath} {segs : List String}
    {s : FileState} (hfs : lookupFS env p = some s)
    (hrp : relpathOpt env.cwd p = some segs) :
    segsToString segs ∈ fsRels env :=
  List.mem_filterMap.mpr ⟨(p, s), fsFind_mem hfs, by simp [hrp]⟩

theorem baseInv_includeStep {env : Env} {pats : List String}
    {parentRel : String} {dir : AbsPath} {rec_ : AbsPath → St → St}
    (hrec : ∀ p st, BaseInv env st → BaseInv env (rec_ p st))
    (st : St) (r : Ref) (h : BaseInv env st) :
    BaseInv env (includeStep env pats parentRel dir rec_ st r) := by
  simp only [includeStep]
  cases hrp : relpathOpt env.cwd (resolve_tex_path dir r) with
  | none => exact h
  | some segs =>
    dsimp only
    by_cases hm : matches_any (segsToString segs) pats = true
    · simp only [if_pos hm]
      exact h
    · simp only [if_neg hm]
      by_cases hdep : segsToString segs ∈ depsGet st.deps parentRel
      · simp only [if_pos hdep]
        by_cases hv : segsToString segs ∈ st.visited
        · simp only [if_pos hv]
          exact h
        · simp only [if_neg hv]
          exact hrec _ _ h
      · simp only [if_neg hdep]
        have h1 : BaseInv env
            { st with deps := depsAppend st.deps parentRel (segsToString segs) } :=
          { po_nodup := h.po_nodup,
            po_sub_visited := h.po_sub_visited,
            keys_eq := by rw [depsAppend_keys]; exact h.keys_eq,
            vals_nodup := depsAppend_vals_nodup
              (by rw [h.keys_eq]; exact h.po_nodup) h.vals_nodup hdep,
            po_in_fs := h.po_in_fs }
        by_cases hv : segsToString segs ∈ st.visited
        · simp only [if_pos hv]
          exact h1
        · simp only [if_neg hv]
          exact hrec _ _ h1

theorem baseInv_includesLoop {env : Env} {pats : List String}
    {parentRel : String} {dir : AbsPath} {rec_ : AbsPath → St → St}
    (hrec : ∀ p st, BaseInv env st → BaseInv env (rec_ p st)) :
    ∀ (refs : List Ref) (st : St), BaseInv env st →
      BaseInv env (includesLoop env pats parentRel dir rec_ refs st) := by
  intro refs
  induction refs with
  | nil => intro st h; exact h
  | cons r rs ih =>
    intro st h
    exact ih _ (baseInv_includeStep hrec st r h)

theorem baseInv_bibsLoop {env : Env} {pats : List String} {dir : AbsPath} :
    ∀ (refs : List Ref) (st : St), BaseInv env st →
      BaseInv env (bibsLoop env pats dir refs st) := by
  intro refs
  induction refs with
  | nil => intro st h; exact h
  | cons r rs ih =>
    intro st h
    refine ih _ ?_
    simp only [bibStep]
    by_cases hm : matches_any (bibRecordString env dir r) pats = true
    · simp only [if_pos hm]
      exact h
    · simp only [if_neg hm]
      exact ⟨h.po_nodup, h.po_sub_visited, h.keys_eq, h.vals_nodup, h.po_in_fs⟩

theorem baseInv_imgsLoop {env : Env} {pats : List String} {dir : AbsPath} :
    ∀ (refs : List Ref) (st : St), BaseInv env st →
      BaseInv env (imgsLoop env pats dir refs st) := by
  intro refs
  induction refs with
  | nil => intro st h; exact h
  | cons r rs ih =>
    intro st h
    refine ih _ ?_
    simp only [imgStep]
    by_cases hm : matches_any (normalize_path env dir r).1 pats = true
    · simp only [if_pos hm]
      exact ⟨h.po_nodup, h.po_sub_visited, h.keys_eq, h.vals_nodup, h.po_in_fs⟩
    · simp only [if_neg hm]
      exact ⟨h.po_nodup, h.po_sub_visited, h.keys_eq, h.vals_nodup, h.po_in_fs⟩

theorem baseInv_recurse {env : Env} {pats : List String} :
    ∀ (fuel : Nat) (p : AbsPath) (st : St), BaseInv env st →
      BaseInv env (recurse env pats fuel p st) := by
  intro fuel
  induction fuel with
  | zero => intro p st h; exact h
  | succ fuel ih =>
    intro p st h
    simp only [recurse]
    cases hrp : relpathOpt env.cwd p with
    | none => exact h
    | some segs =>
      dsimp only
      by_cases hv : segsToString segs ∈ st.visited ∨
          matches_any (segsToString segs) pats = true
      · simp only [if_pos hv]
        exact h
      · simp only [if_neg hv]
        have hnv : segsToString segs ∉ st.visited := fun hc => hv (Or.inl hc)
        have hnp : segsToString segs ∉ st.processedOrder :=
          fun hc => hnv (h.po_sub_visited _ hc)
        cases hfs : lookupFS env p with
        | none =>
          exact ⟨h.po_nodup, fun q hq => List.mem_append_left _
            (h.po_sub_visited q hq), h.keys_eq, h.vals_nodup, h.po_in_fs⟩
        | some fstate =>
          have hst1 : BaseInv env { st with
              visited := st.visited ++ [segsToString segs],
              processedOrder := st.processedOrder ++ [segsToString segs],
              deps := st.deps ++ [(segsToString segs, [])] } :=
            { po_nodup := by
                refine List.nodup_append.mpr
                  ⟨h.po_nodup, List.nodup_singleton _, ?_⟩
                intro a ha hb
                rw [List.mem_singleton] at hb
                exact hnp (hb ▸ ha),
              po_sub_visited := by
                intro q hq
                rcases List.mem_append.mp hq with hq | hq
                · exact List.mem_append_left _ (h.po_sub_visited q hq)
                · exact List.mem_append_right _ hq,
              keys_eq := by
                rw [List.map_append, h.keys_eq]
                rfl,
              vals_nodup := by
                intro e he
                rcases List.mem_append.mp he with he | he
                · exact h.vals_nodup e he
                · rw [List.mem_singleton.mp he]
                  exact List.nodup_nil,
              po_in_fs := by
                intro q hq
                rcases List.mem_append.mp hq with hq | hq
                · exact h.po_in_fs q hq
                · rw [List.mem_singleton.mp hq]
                  exact rel_mem_fsRels hfs hrp }
          cases fstate with
          | unreadable => exact ⟨hst1.po_nodup, hst1.po_sub_visited,
              hst1.keys_eq, hst1.vals_nodup, hst1.po_in_fs⟩
          | readable doc =>
            exact baseInv_imgsLoop _ _ (baseInv_bibsLoop _ _
              (baseInv_includesLoop ih _ _ hst1))

theorem baseInv_entriesLoop {env : Env} {pats : List String} (fuel : Nat) :
    ∀ (es : List Ref) (st : St), BaseInv env st →
      BaseInv env (entriesLoop env pats fuel es st) := by
  intro es
  induction es with
  | nil => intro st h; exact h
  | cons e rest ih =>
    intro st h
    by_cases hf : isfile env (absJoinNorm env.cwd e)
    · simp only [entriesLoop, if_pos hf]
      exact ih _ (baseInv_recurse fuel _ st h)
    · simp only [entriesLoop, if_neg hf]
      exact ih _ ⟨h.po_nodup, h.po_sub_visited, h.keys_eq, h.vals_nodup,
        h.po_in_fs⟩

theorem baseInv_emptySt (env : Env) : BaseInv env emptySt := by
  refine ⟨List.nodup_nil, ?_, rfl, ?_, ?_⟩ <;> intro q hq <;>
    simp [emptySt] at hq

theorem baseInv_run (env : Env) (entries : List Ref) (pats : List String) :
    BaseInv env (entriesLoop env pats (defaultFuel env) entries emptySt) :=
  baseInv_entriesLoop (defaultFuel env) entries emptySt (baseInv_emptySt env)

/-- C3.  No duplicates: visitedOrder lists each path at most once, and
each adjacency value list lists each child at most once, regardless of how
often the parent's text repeats a directive. -/
theorem C3_no_duplicates (env : Env) (entries : List Ref)
    (pats : List String) :
    (collect_dependencies env entries pats).visitedOrder.Nodup ∧
    ∀ e ∈ (collect_dependencies env entries pats).deps, e.2.Nodup :=
  ⟨(baseInv_run env entries pats).po_nodup,
    (baseInv_run env entries pats).vals_nodup⟩

/-! ## Identification of filesystem entries by relative path (WFEnv) -/

theorem filterMap_nodup_inj {α β : Type} {f : α → Option β} {l : List α}
    (hn : (l.filterMap f).Nodup) {a b : α} (ha : a ∈ l) (hb : b ∈ l)
    {s : β} (hfa : f a = some s) (hfb : f b = some s) : a = b := by
  induction l with
  | nil => cases ha
  | cons x xs ih =>
    rw [List.filterMap_cons] at hn
    cases hfx : f x with
    | none =>
      rw [hfx] at hn
      have ha' : a ∈ xs := by
        rcases List.mem_cons.mp ha with rfl | h
        · cases hfa.symm.trans hfx
        · exact h
      have hb' : b ∈ xs := by
        rcases List.mem_cons.mp hb with rfl | h
        · cases hfb.symm.trans hfx
        · exact h
      exact ih hn ha' hb'
    | some y =>
      rw [hfx] at hn
      rw [List.nodup_cons] at hn
      rcases List.mem_cons.mp ha with rfl | ha' <;>
        rcases List.mem_cons.mp hb with rfl | hb'
      · rfl
      · exfalso
        have hy : y = s := Option.some.inj (hfx.symm.trans hfa)
        exact hn.1 (hy ▸ List.mem_filterMap.mpr ⟨b, hb', hfb⟩)
      · exfalso
        have hy : y = s := Option.some.inj (hfx.symm.trans hfb)
        exact hn.1 (hy ▸ List.mem_filterMap.mpr ⟨a, ha', hfa⟩)
      · exact ih hn.2 ha' hb'

theorem wf_entry_unique {env : Env} (hwf : WFEnv env) {p q : AbsPath}
    {sp sq : FileState} {segsp segsq : List String}
    (hp : lookupFS env p = some sp) (hq : lookupFS env q = some sq)
    (hrp : relpathOpt env.cwd p = some segsp)
    (hrq : relpathOpt env.cwd q = some segsq)
    (heq : segsToString segsp = segsToString segsq) :
    p = q ∧ sp = sq := by
  have hn : (env.fs.filterMap
      (fun e => (relpathOpt env.cwd e.1).map segsToString)).Nodup := hwf
  have h := filterMap_nodup_inj hn (fsFind_mem hp) (fsFind_mem hq)
    (s := segsToString segsp) (by simp [hrp]) (by simp [hrq, heq])
  exact ⟨congrArg Prod.fst h, congrArg Prod.snd h⟩

theorem wf_readable_ne_unreadable {env : Env} (hwf : WFEnv env)
    {p q : AbsPath} {doc : Doc} {segsp segsq : List String}
    (hp : lookupFS env p = some (FileState.readable doc))
    (hq : lookupFS env q = some FileState.unreadable)
    (hrp : relpathOpt env.cwd p = some segsp)
    (hrq : relpathOpt env.cwd q = some segsq) :
    segsToString segsp ≠ segsToString segsq := by
  intro heq
  have h := (wf_entry_unique hwf hp hq hrp hrq heq).2
  cases h

/-! ## Field-preservation of the extraction loops -/

theorem bibsLoop_fields (env : Env) (pats : List String) (dir : AbsPath) :
    ∀ (refs : List Ref) (st : St),
      (bibsLoop env pats dir refs st).visited = st.visited ∧
      (bibsLoop env pats dir refs st).processedOrder = st.processedOrder ∧
      (bibsLoop env pats dir refs st).deps = st.deps ∧
      (bibsLoop env pats dir refs st).images = st.images ∧
      (bibsLoop env pats dir refs st).diags = st.diags := by
  intro refs
  induction refs with
  | nil => intro st; exact ⟨rfl, rfl, rfl, rfl, rfl⟩
  | cons r rs ih =>
    intro st
    have hstep : (bibStep env pats dir st r).visited = st.visited ∧
        (bibStep env pats dir st r).processedOrder = st.processedOrder ∧
        (bibStep env pats dir st r).deps = st.deps ∧
        (bibStep env pats dir st r).images = st.images ∧
        (bibStep env pats dir st r).diags = st.diags := by
      simp only [bibStep]
      by_cases hm : matches_any (bibRecordString env dir r) pats = true
      · rw [if_pos hm]
        exact ⟨rfl, rfl, rfl, rfl, rfl⟩
      · rw [if_neg hm]
        exact ⟨rfl, rfl, rfl, rfl, rfl⟩
    obtain ⟨i1, i2, i3, i4, i5⟩ := ih (bibStep env pats dir st r)
    exact ⟨i1.trans hstep.1, i2.trans hstep.2.1, i3.trans hstep.2.2.1,
      i4.trans hstep.2.2.2.1, i5.trans hstep.2.2.2.2⟩

theorem imgsLoop_fields (env : Env) (pats : List String) (dir : AbsPath) :
    ∀ (refs : List Ref) (st : St),
      (imgsLoop env pats dir refs st).visited = st.visited ∧
      (imgsLoop env pats dir refs st).processedOrder = st.processedOrder ∧
      (imgsLoop env pats dir refs st).deps = st.deps ∧
      (imgsLoop env pats dir refs st).bibs = st.bibs := by
  intro refs
  induction refs with
  | nil => intro st; exact ⟨rfl, rfl, rfl, rfl⟩
  | cons r rs ih =>
    intro st
    have hstep : (imgStep env pats dir st r).visited = st.visited ∧
        (imgStep env pats dir st r).processedOrder = st.processedOrder ∧
        (imgStep env pats dir st r).deps = st.deps ∧
        (imgStep env pats dir st r).bibs = st.bibs := by
      simp only [imgStep]
      by_cases hm : matches_any (normalize_path env dir r).1 pats = true
      · rw [if_pos hm]
        exact ⟨rfl, rfl, rfl, rfl⟩
      · rw [if_neg hm]
        exact ⟨rfl, rfl, rfl, rfl⟩
    obtain ⟨i1, i2, i3, i4⟩ := ih (imgStep env pats dir st r)
    exact ⟨i1.trans hstep.1, i2.trans hstep.2.1, i3.trans hstep.2.2.1,
      i4.trans hstep.2.2.2⟩

/-! ## Loop postconditions: everything demanded is recorded -/

theorem includesLoop_post {env : Env} {pats : List String}
    {parentRel : String} {dir : AbsPath} {rec_ : AbsPath → St → St}
    (hrec_mono : ∀ p st, StMono st (rec_ p st)) :
    ∀ (refs : List Ref) (st : St), parentRel ∈ st.deps.map Prod.fst →
      ∀ r ∈ refs, ∀ csegs,
        relpathOpt env.cwd (resolve_tex_path dir r) = some csegs →
        matches_any (segsToString csegs) pats = false →
        segsToString csegs ∈
          depsGet (includesLoop env pats parentRel dir rec_ refs st).deps
            parentRel := by
  intro refs
  induction refs with
  | nil => intro st _ r hr; cases hr
  | cons r₀ rs ih =>
    intro st hkey r hr csegs hcr hm
    have hkey' : parentRel ∈
        (includeStep env pats parentRel dir rec_ st r₀).deps.map Prod.fst :=
      (includeStep_mono hrec_mono st r₀).depsk _ hkey
    rcases List.mem_cons.mp hr with rfl | hr
    · have hstep : segsToString csegs ∈
          depsGet (includeStep env pats parentRel dir rec_ st r).deps
            parentRel := by
        simp only [includeStep, hcr]
        rw [if_neg (show ¬ matches_any (segsToString csegs) pats = true by
          simp [hm])]
        by_cases hdep : segsToString csegs ∈ depsGet st.deps parentRel
        · rw [if_pos hdep]
          by_cases hv : segsToString csegs ∈ st.visited
          · rw [if_pos hv]
            exact hdep
          · rw [if_neg hv]
            exact (hrec_mono _ _).depsv _ _ hdep
        · rw [if_neg hdep]
          have hin : segsToString csegs ∈
              depsGet (depsAppend st.deps parentRel (segsToString csegs))
                parentRel := by
            rw [depsAppend_get_mem _ hkey]
            exact List.mem_append_right _ (List.mem_singleton_self _)
          by_cases hv : segsToString csegs ∈ st.visited
          · rw [if_pos hv]
            exact hin
          · rw [if_neg hv]
            exact (hrec_mono _ _).depsv _ _ hin
      exact (includesLoop_mono hrec_mono rs _).depsv _ _ hstep
    · exact ih _ hkey' r hr csegs hcr hm

theorem bibsLoop_post {env : Env} {pats : List String} {dir : AbsPath} :
    ∀ (refs : List Ref) (st : St), ∀ r ∈ refs,
      matches_any (bibRecordString env dir r) pats = false →
      bibRecordString env dir r ∈ (bibsLoop env pats dir refs st).bibs := by
  intro refs
  induction refs with
  | nil => intro st r hr; cases hr
  | cons r₀ rs ih =>
    intro st r hr hm
    rcases List.mem_cons.mp hr with rfl | hr
    · have hstep : bibRecordString env dir r ∈ (bibStep env pats dir st r).bibs := by
        simp only [bibStep]
        rw [if_neg (show ¬ matches_any (bibRecordString env dir r) pats = true by
          simp [hm])]
        exact mem_setInsert.mpr (Or.inl rfl)
      exact (bibsLoop_mono env pats dir rs _).bibs _ hstep
    · exact ih _ r hr hm

theorem imgsLoop_post {env : Env} {pats : List String} {dir : AbsPath} :
    ∀ (refs : List Ref) (st : St), ∀ r ∈ refs,
      matches_any (normalize_path env dir r).1 pats = false →
      (normalize_path env dir r).1 ∈ (imgsLoop env pats dir refs st).images := by
  intro refs
  induction refs with
  | nil => intro st r hr; cases hr
  | cons r₀ rs ih =>
    intro st r hr hm
    rcases List.mem_cons.mp hr with rfl | hr
    · have hstep : (normalize_path env dir r).1 ∈ (imgStep env pats dir st r).images := by
        simp only [imgStep]
        rw [if_neg (show ¬ matches_any (normalize_path env dir r).1 pats = true by
          simp [hm])]
        exact mem_setInsert.mpr (Or.inl rfl)
      exact (imgsLoop_mono env pats dir rs _).images _ hstep
    · exact ih _ r hr hm

/-! ## Unreadable files are never expanded (UEInv) -/

theorem ueInv_of_deps_eq {env : Env} {st st' : St} (hd : st'.deps = st.deps)
    (h : UEInv env st) : UEInv env st' := by
  intro qAbs qsegs hq hrq
  rw [hd]
  exact h qAbs qsegs hq hrq

theorem ueInv_includeStep {env : Env} {pats : List String}
    {parentRel : String} {dir : AbsPath} {rec_ : AbsPath → St → St}
    (hwf : WFEnv env) (hpar : ReadableRel env parentRel)
    (hrec : ∀ p st, UEInv env st → UEInv env (rec_ p st))
    (st : St) (r : Ref) (h : UEInv env st) :
    UEInv env (includeStep env pats parentRel dir rec_ st r) := by
  simp only [includeStep]
  cases hrp : relpathOpt env.cwd (resolve_tex_path dir r) with
  | none => exact h
  | some segs =>
    dsimp only
    by_cases hm : matches_any (segsToString segs) pats = true
    · rw [if_pos hm]
      exact h
    · rw [if_neg hm]
      have h1 : UEInv env
          { st with deps := depsAppend st.deps parentRel (segsToString segs) } := by
        intro qAbs qsegs hq hrq
        obtain ⟨pAbs, doc, psegs, hps, hprp, hpeq⟩ := hpar
        have hne : segsToString qsegs ≠ parentRel := fun he =>
          wf_readable_ne_unreadable hwf hps hq hprp hrq (hpeq.trans he.symm)
        show depsGet (depsAppend st.deps parentRel (segsToString segs))
            (segsToString qsegs) = []
        rw [depsAppend_get_ne hne]
        exact h qAbs qsegs hq hrq
      by_cases hdep : segsToString segs ∈ depsGet st.deps parentRel
      · rw [if_pos hdep]
        by_cases hv : segsToString segs ∈ st.visited
        · rw [if_pos hv]
          exact h
        · rw [if_neg hv]
          exact hrec _ _ h
      · rw [if_neg hdep]
        by_cases hv : segsToString segs ∈ st.visited
        · rw [if_pos hv]
          exact h1
        · rw [if_neg hv]
          exact hrec _ _ h1

theorem ueInv_includesLoop {env : Env} {pats : List String}
    {parentRel : String} {dir : AbsPath} {rec_ : AbsPath → St → St}
    (hwf : WFEnv env) (hpar : ReadableRel env parentRel)
    (hrec : ∀ p st, UEInv env st → UEInv env (rec_ p st)) :
    ∀ (refs : List Ref) (st : St), UEInv env st →
      UEInv env (includesLoop env pats parentRel dir rec_ refs st) := by
  intro refs
  induction refs with
  | nil => intro st h; exact h
  | cons r rs ih =>
    intro st h
    exact ih _ (ueInv_includeStep hwf hpar hrec st r h)

theorem ueInv_recurse {env : Env} {pats : List String} (hwf : WFEnv env) :
    ∀ (fuel : Nat) (p : AbsPath) (st : St), UEInv env st →
      UEInv env (recurse env pats fuel p st) := by
  intro fuel
  induction fuel with
  | zero => intro p st h; exact h
  | succ fuel ih =>
    intro p st h
    simp only [recurse]
    cases hrp : relpathOpt env.cwd p with
    | none => exact h
    | some segs =>
      dsimp only
      by_cases hv : segsToString segs ∈ st.visited ∨
          matches_any (segsToString segs) pats = true
      · rw [if_pos hv]
        exact h
      · rw [if_neg hv]
        have h1 : UEInv env { st with
            visited := st.visited ++ [segsToString segs],
            processedOrder := st.processedOrder ++ [segsToString segs],
            deps := st.deps ++ [(segsToString segs, [])] } := by
          intro qAbs qsegs hq hrq
          show depsGet (st.deps ++ [(segsToString segs, [])])
              (segsToString qsegs) = []
          rw [depsGet_append_empty]
          exact h qAbs qsegs hq hrq
        cases hfs : lookupFS env p with
        | none => exact ueInv_of_deps_eq rfl h
        | some fstate =>
          cases fstate with
          | unreadable => exact fun qAbs qsegs hq hrq => h1 qAbs qsegs hq hrq
          | readable doc =>
            have h2 := @ueInv_includesLoop env pats (segsToString segs)
              (dirname p) _ hwf
              ⟨p, doc, segs, hfs, hrp, rfl⟩ ih doc.includes _ h1
            refine ueInv_of_deps_eq ?_ h2
            rw [(imgsLoop_fields env pats (dirname p) doc.imgRefs _).2.2.1,
              (bibsLoop_fields env pats (dirname p) doc.bibRefs _).2.2.1]

theorem ueInv_entriesLoop {env : Env} {pats : List String} (hwf : WFEnv env)
    (fuel : Nat) :
    ∀ (es : List Ref) (st : St), UEInv env st →
      UEInv env (entriesLoop env pats fuel es st) := by
  intro es
  induction es with
  | nil => intro st h; exact h
  | cons e rest ih =>
    intro st h
    by_cases hf : isfile env (absJoinNorm env.cwd e)
    · simp only [entriesLoop, if_pos hf]
      exact ih _ (ueInv_recurse hwf fuel _ st h)
    · simp only [entriesLoop, if_neg hf]
      exact ih _ (ueInv_of_deps_eq rfl h)

theorem ueInv_run (env : Env) (pats : List String) (entries : List Ref)
    (hwf : WFEnv env) :
    UEInv env (entriesLoop env pats (defaultFuel env) entries emptySt) :=
  ueInv_entriesLoop hwf (defaultFuel env) entries emptySt
    (fun _ _ _ _ => rfl)

/-! ## Obligations of newly processed documents (ObsOK) -/

theorem ObsOK_mono {env : Env} {pats : List String} {q : String}
    {st st' : St} (h : ObsOK env pats q st) (hm : StMono st st') :
    ObsOK env pats q st' := by
  obtain ⟨h1, h2⟩ := h
  refine ⟨?_, ?_⟩
  · intro pAbs doc segs hfs hrp heq
    obtain ⟨hi, hb, him⟩ := h1 pAbs doc segs hfs hrp heq
    exact ⟨fun r hr csegs hcr hmm => hm.depsv _ _ (hi r hr csegs hcr hmm),
      fun r hr hmm => hm.bibs _ (hb r hr hmm),
      fun r hr hmm => hm.images _ (him r hr hmm)⟩
  · intro pAbs segs hfs hrp heq
    exact hm.diags _ (h2 pAbs segs hfs hrp heq)

theorem obs_includeStep_new {env : Env} {pats : List String}
    {parentRel : String} {dir : AbsPath} {rec_ : AbsPath → St → St}
    (hrec : ∀ p st q, q ∈ (rec_ p st).processedOrder →
      q ∉ st.processedOrder → ObsOK env pats q (rec_ p st))
    (st : St) (r : Ref) (q : String)
    (hq : q ∈ (includeStep env pats parentRel dir rec_ st r).processedOrder)
    (hq0 : q ∉ st.processedOrder) :
    ObsOK env pats q (includeStep env pats parentRel dir rec_ st r) := by
  cases hrp : relpathOpt env.cwd (resolve_tex_path dir r) with
  | none =>
    simp only [includeStep, hrp] at hq ⊢
    exact absurd hq hq0
  | some segs =>
    simp only [includeStep, hrp] at hq ⊢
    by_cases hm : matches_any (segsToString segs) pats = true
    · rw [if_pos hm] at hq ⊢
      exact absurd hq hq0
    · rw [if_neg hm] at hq ⊢
      by_cases hdep : segsToString segs ∈ depsGet st.deps parentRel
      · rw [if_pos hdep] at hq ⊢
        by_cases hv : segsToString segs ∈ st.visited
        · rw [if_pos hv] at hq ⊢
          exact absurd hq hq0
        · rw [if_neg hv] at hq ⊢
          exact hrec _ _ q hq hq0
      · rw [if_neg hdep] at hq ⊢
        by_cases hv : segsToString segs ∈ st.visited
        · rw [if_pos hv] at hq ⊢
          exact absurd hq hq0
        · rw [if_neg hv] at hq ⊢
          exact hrec _ _ q hq hq0

theorem obs_includesLoop_new {env : Env} {pats : List String}
    {parentRel : String} {dir : AbsPath} {rec_ : AbsPath → St → St}
    (hrec : ∀ p st q, q ∈ (rec_ p st).processedOrder →
      q ∉ st.processedOrder → ObsOK env pats q (rec_ p st))
    (hrec_mono : ∀ p st, StMono st (rec_ p st)) :
    ∀ (refs : List Ref) (st : St) (q : String),
      q ∈ (includesLoop env pats parentRel dir rec_ refs st).processedOrder →
      q ∉ st.processedOrder →
      ObsOK env pats q (includesLoop env pats parentRel dir rec_ refs st) := by
  intro refs
  induction refs with
  | nil => intro st q hq hq0; exact absurd hq hq0
  | cons r₀ rs ih =>
    intro st q hq hq0
    by_cases hq' : q ∈ (includeStep env pats parentRel dir rec_ st r₀).processedOrder
    · exact ObsOK_mono (obs_includeStep_new hrec st r₀ q hq' hq0)
        (includesLoop_mono hrec_mono rs _)
    · exact ih _ q hq hq'

theorem obs_recurse {env : Env} {pats : List String} (hwf : WFEnv env) :
    ∀ (fuel : Nat) (p : AbsPath) (st : St) (q : String),
      q ∈ (recurse env pats fuel p st).processedOrder →
      q ∉ st.processedOrder →
      ObsOK env pats q (recurse env pats fuel p st) := by
  intro fuel
  induction fuel with
  | zero => intro p st q hq hq0; exact absurd hq hq0
  | succ fuel ih =>
    intro p st q hq hq0
    cases hrp : relpathOpt env.cwd p with
    | none =>
      simp only [recurse, hrp] at hq ⊢
      exact absurd hq hq0
    | some segs =>
      simp only [recurse, hrp] at hq ⊢
      by_cases hv : segsToString segs ∈ st.visited ∨
          matches_any (segsToString segs) pats = true
      · rw [if_pos hv] at hq ⊢
        exact absurd hq hq0
      · rw [if_neg hv] at hq ⊢
        cases hfs : lookupFS env p with
        | none =>
          simp only [hfs] at hq ⊢
          exact absurd hq hq0
        | some fstate =>
          cases fstate with
          | unreadable =>
            simp only [hfs] at hq ⊢
            have hq' : q = segsToString segs := by
              rcases List.mem_append.mp hq with h | h
              · exact absurd h hq0
              · exact List.mem_singleton.mp h
            subst hq'
            constructor
            · intro pAbs doc segs' hfs' hrp' heq'
              exact absurd heq'
                (wf_readable_ne_unreadable hwf hfs' hfs hrp' hrp)
            · intro pAbs segs' hfs' hrp' heq'
              exact List.mem_append_right _ (List.mem_singleton_self _)
          | readable doc =>
            simp only [hfs] at hq ⊢
            rw [(imgsLoop_fields env pats (dirname p) doc.imgRefs _).2.1,
              (bibsLoop_fields env pats (dirname p) doc.bibRefs _).2.1] at hq
            by_cases hq1 : q ∈ (st.processedOrder ++ [segsToString segs])
            · have hq' : q = segsToString segs := by
                rcases List.mem_append.mp hq1 with h | h
                · exact absurd h hq0
                · exact List.mem_singleton.mp h
              subst hq'
              constructor
              · intro pAbs doc' segs' hfs' hrp' heq'
                have hid := wf_entry_unique hwf hfs' hfs hrp' hrp heq'
                have hpeq : pAbs = p := hid.1
                have hdeq : doc' = doc := FileState.readable.inj hid.2
                subst hpeq
                subst hdeq
                have hseq : segs' = segs :=
                  Option.some.inj (hrp'.symm.trans hrp)
                subst hseq
                refine ⟨?_, ?_, ?_⟩
                · intro r hr csegs hcr hmm
                  rw [(imgsLoop_fields env pats (dirname pAbs) _ _).2.2.1,
                    (bibsLoop_fields env pats (dirname pAbs) _ _).2.2.1]
                  refine includesLoop_post (recurse_mono env pats fuel)
                    _ _ ?_ r hr csegs hcr hmm
                  show segsToString segs' ∈
                    (st.deps ++ [(segsToString segs', [])]).map Prod.fst
                  rw [List.map_append]
                  exact List.mem_append_right _ (List.mem_singleton_self _)
                · intro r hr hmm
                  rw [(imgsLoop_fields env pats (dirname pAbs) _ _).2.2.2]
                  exact bibsLoop_post _ _ r hr hmm
                · intro r hr hmm
                  exact imgsLoop_post _ _ r hr hmm
              · intro pAbs segs' hfs' hrp' heq'
                exact absurd heq'.symm
                  (wf_readable_ne_unreadable hwf hfs hfs' hrp hrp')
            · have hobs := obs_includesLoop_new ih (recurse_mono env pats fuel)
                doc.includes _ q hq hq1
              exact ObsOK_mono hobs
                ((bibsLoop_mono env pats (dirname p) doc.bibRefs _).trans
                  (imgsLoop_mono env pats (dirname p) doc.imgRefs _))

theorem obs_entriesLoop {env : Env} {pats : List String} (hwf : WFEnv env)
    (fuel : Nat) :
    ∀ (es : List Ref) (st : St) (q : String),
      q ∈ (entriesLoop env pats fuel es st).processedOrder →
      q ∉ st.processedOrder →
      ObsOK env pats q (entriesLoop env pats fuel es st) := by
  intro es
  induction es with
  | nil => intro st q hq hq0; exact absurd hq hq0
  | cons e rest ih =>
    intro st q hq hq0
    by_cases hf : isfile env (absJoinNorm env.cwd e)
    · simp only [entriesLoop, if_pos hf] at hq ⊢
      by_cases hq' : q ∈ (recurse env pats fuel (absJoinNorm env.cwd e) st).processedOrder
      · exact ObsOK_mono (obs_recurse hwf fuel _ st q hq' hq0)
          (entriesLoop_mono env pats fuel rest _)
      · exact ih _ q hq hq'
    · simp only [entriesLoop, if_neg hf] at hq ⊢
      exact ih _ q hq hq0

theorem obs_run (env : Env) (pats : List String) (entries : List Ref)
    (hwf : WFEnv env) (q : String)
    (hq : q ∈ (entriesLoop env pats (defaultFuel env) entries
      emptySt).processedOrder) :
    ObsOK env pats q (entriesLoop env pats (defaultFuel env) entries
      emptySt) :=
  obs_entriesLoop hwf (defaultFuel env) entries emptySt q hq
    (by simp [emptySt])

/-! ## Claim C10: adjacency lists can name non-visited documents -/

/-- C10.  Adjacency and visitedOrder: the adjacency keys are exactly
visitedOrder (same elements, same order); a non-excluded resolvable child
of a visited readable document is recorded in the parent's adjacency value
list even when no file on disk has that relative path, in which case the
child never appears in visitedOrder — so value lists are not a subset of
visitedOrder. -/
theorem C10_adjacency_vs_visited (env : Env) (entries : List Ref)
    (pats : List String) (hwf : WFEnv env) :
    ((collect_dependencies env entries pats).deps.map Prod.fst =
      (collect_dependencies env entries pats).visitedOrder) ∧
    (∀ (pAbs : AbsPath) (doc : Doc) (segs csegs : List String) (r : Ref),
      lookupFS env pAbs = some (FileState.readable doc) →
      relpathOpt env.cwd pAbs = some segs →
      segsToString segs ∈ (collect_dependencies env entries pats).visitedOrder →
      r ∈ doc.includes →
      relpathOpt env.cwd (resolve_tex_path (dirname pAbs) r) = some csegs →
      matches_any (segsToString csegs) pats = false →
      segsToString csegs ∈
        depsGet (collect_dependencies env entries pats).deps
          (segsToString segs) ∧
      (segsToString csegs ∉ fsRels env →
        segsToString csegs ∉
          (collect_dependencies env entries pats).visitedOrder)) := by
  constructor
  · exact (baseInv_run env entries pats).keys_eq
  · intro pAbs doc segs csegs r hfs hrp hvo hr hcr hm
    have hobs := obs_run env pats entries hwf (segsToString segs) hvo
    refine ⟨(hobs.1 pAbs doc segs hfs hrp rfl).1 r hr csegs hcr hm, ?_⟩
    intro hnofs hvo'
    exact hnofs ((baseInv_run env entries pats).po_in_fs _ hvo')

/-- Closed instance of C10: the missing child missing.tex is in the
parent's adjacency list but not in visitedOrder. -/
theorem C10_adjacency_vs_visited_witness :
    "missing.tex" ∈ depsGet (collect_dependencies envC10
        [⟨none, ["main.tex"]⟩] []).deps "main.tex" ∧
    "missing.tex" ∉ (collect_dependencies envC10
        [⟨none, ["main.tex"]⟩] []).visitedOrder := by
  have h := (C10_adjacency_vs_visited envC10 [⟨none, ["main.tex"]⟩] []
      (by unfold WFEnv; decide)).2 ⟨0, ["p", "main.tex"]⟩ ⟨[⟨none, ["missing"]⟩], [], []⟩
      ["main.tex"] ["missing.tex"] ⟨none, ["missing"]⟩ (by decide) (by decide)
      (by decide) (by decide) (by decide) (by decide)
  exact ⟨h.1, h.2 (by decide)⟩

/-! ## Claim C6: bibliography fallback resolution (corrected) -/

/-- C6 counterexample.  When the bibliography file exists nowhere, the
recorded best-effort identifier is NOT the original un-resolved reference
string "refs": the code records "refs.bib", the reference with the
default .bib extension already applied (line 196 runs before the
existence checks). -/
theorem C6_bib_fallback_counterexample :
    (collect_dependencies envC6missing [⟨none, ["main.tex"]⟩] []).bibs =
      ["refs.bib"] ∧
    "refs" ∉ (collect_dependencies envC6missing
      [⟨none, ["main.tex"]⟩] []).bibs :=
  ⟨by decide, by decide⟩

/-- C6 (amended).  Bibliography references are resolved against the
containing directory first, with a fallback to the project root; when the
file exists in neither place, the recorded identifier is the un-resolved
reference with the default .bib extension applied (not the original
reference string); every non-excluded record of a visited document
reaches the final bibs set; in the spec's scenario the containing
directory wins. -/
theorem C6_bib_fallback_amended :
    (∀ (env : Env) (entries : List Ref) (pats : List String), WFEnv env →
      ∀ (pAbs : AbsPath) (doc : Doc) (segs : List String) (r : Ref),
      lookupFS env pAbs = some (FileState.readable doc) →
      relpathOpt env.cwd pAbs = some segs →
      segsToString segs ∈ (collect_dependencies env entries pats).visitedOrder →
      r ∈ doc.bibRefs →
      matches_any (bibRecordString env (dirname pAbs) r) pats = false →
      bibRecordString env (dirname pAbs) r ∈
        (collect_dependencies env entries pats).bibs) ∧
    (∀ (env : Env) (dir : AbsPath) (r : Ref) (segs : List String),
      isfile env (absJoinNorm dir (bibFileRef r)) = true →
      relpathOpt env.cwd (absJoinNorm dir (bibFileRef r)) = some segs →
      bibRecordString env dir r = segsToString segs) ∧
    (∀ (env : Env) (dir : AbsPath) (r : Ref) (segs : List String),
      isfile env (absJoinNorm dir (bibFileRef r)) = false →
      isfile env (absJoinNorm env.cwd (bibFileRef r)) = true →
      relpathOpt env.cwd (absJoinNorm env.cwd (bibFileRef r)) = some segs →
      bibRecordString env dir r = segsToString segs) ∧
    (∀ (env : Env) (dir : AbsPath) (r : Ref),
      isfile env (absJoinNorm dir (bibFileRef r)) = false →
      isfile env (absJoinNorm env.cwd (bibFileRef r)) = false →
      bibRecordString env dir r = refString (bibFileRef r)) ∧
    (collect_dependencies envC6dir [⟨none, ["d", "main.tex"]⟩] []).bibs =
      ["d/refs.bib"] := by
  refine ⟨?_, ?_, ?_, ?_, by decide⟩
  · intro env entries pats hwf pAbs doc segs r hfs hrp hvo hr hm
    have hobs := obs_run env pats entries hwf (segsToString segs) hvo
    exact mem_sortStrings.mpr ((hobs.1 pAbs doc segs hfs hrp rfl).2.1 r hr hm)
  · intro env dir r segs h1 h2
    simp [bibRecordString, h1, h2]
  · intro env dir r segs h1 h2 h3
    simp [bibRecordString, h1, h2, h3]
  · intro env dir r h1 h2
    simp [bibRecordString, h1, h2]

/-- Closed instance of C6 (amended): the found-nowhere equation at the
counterexample environment. -/
theorem C6_bib_fallback_amended_witness :
    bibRecordString envC6missing (dirname ⟨0, ["p", "main.tex"]⟩)
        ⟨none, ["refs"]⟩ = refString (bibFileRef ⟨none, ["refs"]⟩) :=
  C6_bib_fallback_amended.2.2.2.1 envC6missing (dirname ⟨0, ["p", "main.tex"]⟩)
    ⟨none, ["refs"]⟩ (by decide) (by decide)

/-! ## Claim C7: read failure versus nonexistence (corrected) -/

/-- C7 counterexample.  An existing-but-unreadable child is recorded in
visitedOrder (and as an adjacency key), while the same child absent from
disk is not: the four outputs are NOT the same in the two situations, so
a read failure is not output-equivalent to nonexistence. -/
theorem C7_read_failure_counterexample :
    (collect_dependencies envC7unreadable
        [⟨none, ["main.tex"]⟩] []).visitedOrder =
      ["main.tex", "child.tex"] ∧
    (collect_dependencies envC7missing
        [⟨none, ["main.tex"]⟩] []).visitedOrder = ["main.tex"] ∧
    (collect_dependencies envC7unreadable
        [⟨none, ["main.tex"]⟩] []).visitedOrder ≠
      (collect_dependencies envC7missing
        [⟨none, ["main.tex"]⟩] []).visitedOrder :=
  ⟨by decide, by decide, by decide⟩

/-- C7 (amended).  A visited file that exists but cannot be read produces
the read diagnostic and is never expanded (its adjacency list stays
empty); unlike a nonexistent file it does appear in visitedOrder. -/
theorem C7_read_failure_amended (env : Env) (entries : List Ref)
    (pats : List String) (hwf : WFEnv env) (pAbs : AbsPath)
    (segs : List String)
    (hu : lookupFS env pAbs = some FileState.unreadable)
    (hrp : relpathOpt env.cwd pAbs = some segs)
    (hvo : segsToString segs ∈
      (collect_dependencies env entries pats).visitedOrder) :
    Diag.readError (segsToString segs) ∈
      (collect_dependencies env entries pats).diags ∧
    depsGet (collect_dependencies env entries pats).deps
      (segsToString segs) = [] := by
  constructor
  · exact (obs_run env pats entries hwf _ hvo).2 pAbs segs hu hrp rfl
  · exact ueInv_run env pats entries hwf pAbs segs hu hrp

/-- Closed instance of C7 (amended) at the unreadable-child environment. -/
theorem C7_read_failure_amended_witness :
    Diag.readError (segsToString ["child.tex"]) ∈
      (collect_dependencies envC7unreadable [⟨none, ["main.tex"]⟩] []).diags ∧
    depsGet (collect_dependencies envC7unreadable
      [⟨none, ["main.tex"]⟩] []).deps (segsToString ["child.tex"]) = [] :=
  C7_read_failure_amended envC7unreadable [⟨none, ["main.tex"]⟩] []
    (by unfold WFEnv; decide) ⟨0, ["p", "child.tex"]⟩ ["child.tex"] (by decide)
    (by decide) (by decide)

/-! ## Claim C2: cycle safety and termination (fuel indifference) -/

theorem countP_le_countP {α : Type} {l : List α} {p q : α → Bool}
    (h : ∀ a ∈ l, q a = true → p a = true) : l.countP q ≤ l.countP p := by
  induction l with
  | nil => exact Nat.le_refl _
  | cons x xs ih =>
    rw [List.countP_cons, List.countP_cons]
    have ih' := ih (fun a ha => h a (List.mem_cons_of_mem _ ha))
    have hx : (if q x then 1 else 0 : Nat) ≤ if p x then 1 else 0 := by
      by_cases hq : q x = true
      · rw [if_pos hq, if_pos (h x (List.mem_cons_self _ _) hq)]
      · rw [if_neg hq]
        exact Nat.zero_le _
    omega

theorem countP_lt_of_flip {α : Type} {l : List α} {p q : α → Bool}
    (hmono : ∀ a ∈ l, q a = true → p a = true) {a : α} (ha : a ∈ l)
    (hp : p a = true) (hq : q a = false) : l.countP q < l.countP p := by
  induction l with
  | nil => cases ha
  | cons x xs ih =>
    rw [List.countP_cons, List.countP_cons]
    have hmono' : ∀ b ∈ xs, q b = true → p b = true :=
      fun b hb => hmono b (List.mem_cons_of_mem _ hb)
    rcases List.mem_cons.mp ha with rfl | ha'
    · have hle := countP_le_countP hmono'
      rw [if_pos hp, if_neg (by simp [hq])]
      omega
    · have hlt := ih hmono' ha'
      have hx : (if q x then 1 else 0 : Nat) ≤ if p x then 1 else 0 := by
        by_cases hqx : q x = true
        · rw [if_pos hqx, if_pos (hmono x (List.mem_cons_self _ _) hqx)]
        · rw [if_neg hqx]
          exact Nat.zero_le _
      omega

theorem unvisited_le {env : Env} {st st' : St}
    (h : ∀ x ∈ st.visited, x ∈ st'.visited) :
    unvisitedCount env st' ≤ unvisitedCount env st := by
  apply countP_le_countP
  intro a _ ha
  simp only [decide_eq_true_eq] at ha ⊢
  exact fun hmem => ha (h a hmem)

theorem unvisited_lt {env : Env} {st st' : St}
    (hsub : ∀ x ∈ st.visited, x ∈ st'.visited) {q : String}
    (hq : q ∈ fsRels env) (hnew : q ∉ st.visited) (hnow : q ∈ st'.visited) :
    unvisitedCount env st' < unvisitedCount env st := by
  refine countP_lt_of_flip ?_ hq ?_ ?_
  · intro a _ ha
    simp only [decide_eq_true_eq] at ha ⊢
    exact fun hmem => ha (hsub a hmem)
  · simp only [decide_eq_true_eq]
    exact hnew
  · simp [hnow]

theorem includesLoop_stab (env : Env) (pats : List String)
    (parentRel : String) (dir : AbsPath) (f₁ f₂ : Nat)
    (h : ∀ (p : AbsPath) (st : St),
      unvisitedCount env st < f₁ → unvisitedCount env st < f₂ →
      recurse env pats f₁ p st = recurse env pats f₂ p st) :
    ∀ (refs : List Ref) (st : St),
      unvisitedCount env st < f₁ → unvisitedCount env st < f₂ →
      includesLoop env pats parentRel dir (recurse env pats f₁) refs st =
        includesLoop env pats parentRel dir (recurse env pats f₂) refs st := by
  intro refs
  induction refs with
  | nil => intro st _ _; rfl
  | cons r rs ih =>
    intro st h₁ h₂
    have hstep : includeStep env pats parentRel dir (recurse env pats f₁) st r
        = includeStep env pats parentRel dir (recurse env pats f₂) st r := by
      simp only [includeStep]
      cases hrp : relpathOpt env.cwd (resolve_tex_path dir r) with
      | none => rfl
      | some segs =>
        dsimp only
        by_cases hm : matches_any (segsToString segs) pats = true
        · simp only [if_pos hm]
        · simp only [if_neg hm]
          by_cases hdep : segsToString segs ∈ depsGet st.deps parentRel
          · simp only [if_pos hdep]
            by_cases hvv : segsToString segs ∈ st.visited
            · simp only [if_pos hvv]
            · simp only [if_neg hvv]
              exact h _ _ h₁ h₂
          · simp only [if_neg hdep]
            by_cases hvv : segsToString segs ∈ st.visited
            · simp only [if_pos hvv]
            · simp only [if_neg hvv]
              exact h _ _ h₁ h₂
    show includesLoop env pats parentRel dir (recurse env pats f₁) rs
        (includeStep env pats parentRel dir (recurse env pats f₁) st r) =
      includesLoop env pats parentRel dir (recurse env pats f₂) rs
        (includeStep env pats parentRel dir (recurse env pats f₂) st r)
    rw [hstep]
    have hmono := @includeStep_mono env pats parentRel dir _
      (recurse_mono env pats f₂) st r
    exact ih _ (Nat.lt_of_le_of_lt (unvisited_le hmono.visited) h₁)
      (Nat.lt_of_le_of_lt (unvisited_le hmono.visited) h₂)

theorem recurse_stab (env : Env) (pats : List String) :
    ∀ (f₁ f₂ : Nat) (p : AbsPath) (st : St),
      unvisitedCount env st < f₁ → unvisitedCount env st < f₂ →
      recurse env pats f₁ p st = recurse env pats f₂ p st := by
  intro f₁
  induction f₁ with
  | zero =>
    intro f₂ p st h₁ _
    exact absurd h₁ (Nat.not_lt_zero _)
  | succ f₁ ih =>
    intro f₂ p st h₁ h₂
    cases f₂ with
    | zero => exact absurd h₂ (Nat.not_lt_zero _)
    | succ f₂ =>
      simp only [recurse]
      cases hrp : relpathOpt env.cwd p with
      | none => rfl
      | some segs =>
        dsimp only
        by_cases hv : segsToString segs ∈ st.visited ∨
            matches_any (segsToString segs) pats = true
        · simp only [if_pos hv]
        · simp only [if_neg hv]
          cases hfs : lookupFS env p with
          | none => rfl
          | some fstate =>
            cases fstate with
            | unreadable => rfl
            | readable doc =>
              dsimp only
              have hrel : segsToString segs ∈ fsRels env :=
                rel_mem_fsRels hfs hrp
              have hnv : segsToString segs ∉ st.visited :=
                fun hc => hv (Or.inl hc)
              have hlt : unvisitedCount env ({ st with
                  visited := st.visited ++ [segsToString segs],
                  processedOrder := st.processedOrder ++ [segsToString segs],
                  deps := st.deps ++ [(segsToString segs, [])] } : St) <
                  unvisitedCount env st := by
                refine unvisited_lt (fun x hx => List.mem_append_left _ hx)
                  hrel hnv ?_
                exact List.mem_append_right _ (List.mem_singleton_self _)
              have hstab := includesLoop_stab env pats (segsToString segs)
                (dirname p) f₁ f₂ (ih f₂) doc.includes { st with
                  visited := st.visited ++ [segsToString segs],
                  processedOrder := st.processedOrder ++ [segsToString segs],
                  deps := st.deps ++ [(segsToString segs, [])] }
                (by omega) (by omega)
              rw [hstab]

theorem entriesLoop_stab (env : Env) (pats : List String) (f₁ f₂ : Nat)
    (h : ∀ (p : AbsPath) (st : St),
      unvisitedCount env st < f₁ → unvisitedCount env st < f₂ →
      recurse env pats f₁ p st = recurse env pats f₂ p st) :
    ∀ (es : List Ref) (st : St),
      unvisitedCount env st < f₁ → unvisitedCount env st < f₂ →
      entriesLoop env pats f₁ es st = entriesLoop env pats f₂ es st := by
  intro es
  induction es with
  | nil => intro st _ _; rfl
  | cons e rest ih =>
    intro st h₁ h₂
    simp only [entriesLoop]
    by_cases hf : isfile env (absJoinNorm env.cwd e)
    · simp only [if_pos hf]
      rw [h _ _ h₁ h₂]
      have hmono := recurse_mono env pats f₂ (absJoinNorm env.cwd e) st
      exact ih _ (Nat.lt_of_le_of_lt (unvisited_le hmono.visited) h₁)
        (Nat.lt_of_le_of_lt (unvisited_le hmono.visited) h₂)
    · simp only [if_neg hf]
      exact ih _ h₁ h₂

/-- C2.  Cycle safety: the traversal of a (possibly self-including)
document graph terminates — granting the run any extra recursion budget
beyond the default fuel changes nothing — and a document that directly or
transitively includes itself, once visited, appears exactly once in
visitedOrder. -/
theorem C2_cycle_safety (env : Env) (entries : List Ref)
    (pats : List String) (d : String) (_hself : SelfIncluding env d) :
    (∀ extra : Nat,
      collectWithFuel env entries pats (defaultFuel env + extra) =
        collect_dependencies env entries pats) ∧
    (d ∈ (collect_dependencies env entries pats).visitedOrder →
      (collect_dependencies env entries pats).visitedOrder.count d = 1) := by
  constructor
  · intro extra
    have hmu : unvisitedCount env emptySt < defaultFuel env := by
      have hc : unvisitedCount env emptySt ≤ (fsRels env).length :=
        List.countP_le_length _
      have hl : (fsRels env).length ≤ env.fs.length :=
        List.length_filterMap_le _ _
      unfold defaultFuel
      omega
    have hloops := entriesLoop_stab env pats (defaultFuel env + extra)
      (defaultFuel env)
      (fun p st a b => recurse_stab env pats (defaultFuel env + extra)
        (defaultFuel env) p st a b)
      entries emptySt (by omega) hmu
    show collectWithFuel env entries pats (defaultFuel env + extra) =
      collectWithFuel env entries pats (defaultFuel env)
    unfold collectWithFuel
    rw [hloops]
  · intro hmem
    exact List.count_eq_one_of_mem (baseInv_run env entries pats).po_nodup
      hmem

/-- Closed instance of C2 at a document that includes itself: it is
listed exactly once, and one unit of extra fuel changes nothing. -/
theorem C2_cycle_safety_witness :
    (collect_dependencies envC2 [⟨none, ["main.tex"]⟩] []).visitedOrder.count
      "main.tex" = 1 ∧
    collectWithFuel envC2 [⟨none, ["main.tex"]⟩] [] (defaultFuel envC2 + 1) =
      collect_dependencies envC2 [⟨none, ["main.tex"]⟩] [] := by
  have hself : SelfIncluding envC2 "main.tex" :=
    Relation.TransGen.single ⟨⟨0, ["p", "main.tex"]⟩,
      ⟨[⟨none, ["main"]⟩], [], []⟩, ⟨none, ["main"]⟩, ["main.tex"],
      ["main.tex"], by decide, by decide, by decide, by decide, by decide,
      by decide⟩
  have h := C2_cycle_safety envC2 [⟨none, ["main.tex"]⟩] [] "main.tex" hself
  exact ⟨h.2 (by decide), h.1 1⟩

/-! ## Claim C8: behaviour when entries are missing (corrected) -/

theorem entriesLoop_missing_diag (env : Env) (pats : List String)
    (fuel : Nat) :
    ∀ (es : List Ref) (st : St) (e : Ref), e ∈ es →
      isfile env (absJoinNorm env.cwd e) = false →
      Diag.entryNotFound (refString e) ∈
        (entriesLoop env pats fuel es st).diags := by
  intro es
  induction es with
  | nil => intro st e he; cases he
  | cons e₀ rest ih =>
    intro st e he hmiss
    rcases List.mem_cons.mp he with rfl | he'
    · simp only [entriesLoop,
        if_neg (show ¬ isfile env (absJoinNorm env.cwd e) = true by
          simp [hmiss])]
      refine (entriesLoop_mono env pats fuel rest _).diags _ ?_
      exact List.mem_append_right _ (List.mem_singleton_self _)
    · simp only [entriesLoop]
      by_cases hf : isfile env (absJoinNorm env.cwd e₀)
      · rw [if_pos hf]
        exact ih _ e he' hmiss
      · rw [if_neg hf]
        exact ih _ e he' hmiss

theorem entriesLoop_all_missing (env : Env) (pats : List String)
    (fuel : Nat) :
    ∀ (es : List Ref) (st : St),
      (∀ e ∈ es, isfile env (absJoinNorm env.cwd e) = false) →
      (entriesLoop env pats fuel es st).processedOrder =
        st.processedOrder ∧
      (entriesLoop env pats fuel es st).bibs = st.bibs ∧
      (entriesLoop env pats fuel es st).images = st.images := by
  intro es
  induction es with
  | nil => intro st _; exact ⟨rfl, rfl, rfl⟩
  | cons e₀ rest ih =>
    intro st hall
    simp only [entriesLoop,
      if_neg (show ¬ isfile env (absJoinNorm env.cwd e₀) = true by
        simp [hall e₀ (List.mem_cons_self _ _)])]
    exact ih _ (fun e he => hall e (List.mem_cons_of_mem _ he))

/-- C8 counterexample.  With a single supplied entry that does not exist,
main does not fail fatally: it records the diagnostic, resolves nothing,
prints the no-dependencies warning, and completes with exit status 0,
writing its (empty) output. -/
theorem C8_all_entries_missing_counterexample :
    (mainRun envC8 [⟨none, ["a.tex"]⟩] []).status = 0 ∧
    Diag.entryNotFound "a.tex" ∈
      (mainRun envC8 [⟨none, ["a.tex"]⟩] []).res.diags ∧
    (mainRun envC8 [⟨none, ["a.tex"]⟩] []).res.visitedOrder = [] ∧
    (mainRun envC8 [⟨none, ["a.tex"]⟩] []).warnedEmpty = true :=
  ⟨by decide, by decide, by decide, by decide⟩

/-- C8 (amended).  Every missing entry is skipped with its diagnostic and
resolution proceeds with the remaining entries; when every supplied entry
is missing, the run resolves nothing and prints the no-dependencies
warning, but it does NOT fail: it completes with exit status 0. -/
theorem C8_entry_failures_amended :
    (∀ (env : Env) (entries : List Ref) (pats : List String) (e : Ref),
      e ∈ entries → isfile env (absJoinNorm env.cwd e) = false →
      Diag.entryNotFound (refString e) ∈
        (mainRun env entries pats).res.diags) ∧
    (∀ (env : Env) (entries : List Ref) (pats : List String),
      (∀ e ∈ entries, isfile env (absJoinNorm env.cwd e) = false) →
      (mainRun env entries pats).res.visitedOrder = [] ∧
      (mainRun env entries pats).res.bibs = [] ∧
      (mainRun env entries pats).res.images = [] ∧
      (mainRun env entries pats).warnedEmpty = true ∧
      (mainRun env entries pats).status = 0) := by
  constructor
  · intro env entries pats e he hmiss
    exact entriesLoop_missing_diag env pats (defaultFuel env) entries
      emptySt e he hmiss
  · intro env entries pats hall
    obtain ⟨h1, h2, h3⟩ := entriesLoop_all_missing env pats
      (defaultFuel env) entries emptySt hall
    have hvo : (mainRun env entries pats).res.visitedOrder = [] := h1
    have hbibs : (mainRun env entries pats).res.bibs = [] := by
      show sortStrings (entriesLoop env pats (defaultFuel env) entries
        emptySt).bibs = []
      rw [h2]
      rfl
    have himgs : (mainRun env entries pats).res.images = [] := by
      show sortStrings (entriesLoop env pats (defaultFuel env) entries
        emptySt).images = []
      rw [h3]
      rfl
    refine ⟨hvo, hbibs, himgs, ?_, rfl⟩
    show ((mainRun env entries pats).res.visitedOrder.isEmpty &&
      (mainRun env entries pats).res.bibs.isEmpty &&
      (mainRun env entries pats).res.images.isEmpty) = true
    rw [hvo, hbibs, himgs]
    rfl

/-- Closed instance of C8 (amended) at the empty filesystem. -/
theorem C8_entry_failures_amended_witness :
    Diag.entryNotFound (refString (⟨none, ["a.tex"]⟩ : Ref)) ∈
      (mainRun envC8 [⟨none, ["a.tex"]⟩] []).res.diags ∧
    (mainRun envC8 [⟨none, ["a.tex"]⟩] []).status = 0 :=
  ⟨C8_entry_failures_amended.1 envC8 [⟨none, ["a.tex"]⟩] []
      ⟨none, ["a.tex"]⟩ (by decide) (by decide),
    (C8_entry_failures_amended.2 envC8 [⟨none, ["a.tex"]⟩] []
      (by decide)).2.2.2.2⟩

/-! ## Claim C9: silent skip on impossible normalization (corrected) -/

/-- C9 counterexample.  A reference that crosses to an unrelated
filesystem root is skipped without any diagnostic (the warning in the
source is commented out) — the run's diagnostics are empty — while
traversal of the remaining references continues undisturbed. -/
theorem C9_no_silent_skips_counterexample :
    (collect_dependencies envC9 [⟨none, ["main.tex"]⟩] []).diags = [] ∧
    (collect_dependencies envC9 [⟨none, ["main.tex"]⟩] []).visitedOrder =
      ["main.tex", "ok.tex"] ∧
    depsGet (collect_dependencies envC9 [⟨none, ["main.tex"]⟩] []).deps
      "main.tex" = ["ok.tex"] :=
  ⟨by decide, by decide, by decide⟩

/-- C9 (amended).  A reference whose project-relative normalization is
impossible is skipped gracefully — the state, including the diagnostics,
is left exactly as it was, so the rest of the traversal is unaffected —
but silently: no diagnostic is emitted for the skip. -/
theorem C9_normalization_failure_amended :
    (∀ (env : Env) (pats : List String) (fuel : Nat) (p : AbsPath)
      (st : St), relpathOpt env.cwd p = none →
      recurse env pats fuel p st = st) ∧
    (∀ (env : Env) (pats : List String) (parentRel : String)
      (dir : AbsPath) (rec_ : AbsPath → St → St) (st : St) (r : Ref),
      relpathOpt env.cwd (resolve_tex_path dir r) = none →
      includeStep env pats parentRel dir rec_ st r = st) := by
  constructor
  · intro env pats fuel p st h
    cases fuel with
    | zero => rfl
    | succ fuel => simp [recurse, h]
  · intro env pats parentRel dir rec_ st r h
    simp [includeStep, h]

/-- Closed instance of C9 (amended): the unrelated-root reference of the
counterexample environment leaves the state untouched. -/
theorem C9_normalization_failure_amended_witness :
    includeStep envC9 [] "main.tex" (dirname ⟨0, ["p", "main.tex"]⟩)
      (recurse envC9 [] 2) emptySt ⟨some 1, ["x", "y"]⟩ = emptySt :=
  C9_normalization_failure_amended.2 envC9 [] "main.tex"
    (dirname ⟨0, ["p", "main.tex"]⟩) (recurse envC9 [] 2) emptySt
    ⟨some 1, ["x", "y"]⟩ (by decide)

end L2L
